import Mathlib

/-!
Verification development for a process-algebra model checker.

The program keeps a labelled transition system (LTS) as a mutable `Graph`
object: a map from node ids to nodes, a map from edge ids to edges, and an
optional root id.  JavaScript objects keyed by numeric ids are iterated in
ascending numeric order, so both maps are modelled as lists sorted by id.
Metadata bags are JavaScript objects keyed by non-numeric strings; they are
iterated in insertion order, so they are modelled as association lists in
insertion order with in-place update.

All definitions in namespace `MC` are translated from the graph/operations
source file (the `Graph`, `Graph.Node`, `Graph.Edge`, `Graph.ColoredNode`,
`Graph.NodeColoring` and `Graph.Operations` classes).
-/

namespace MC

/-- Metadata values stored in a node's metadata bag: the source stores the
booleans `true` and strings such as `"stop"` / `"error"`. -/
inductive MVal where
  | b (v : Bool)
  | s (v : String)
deriving DecidableEq, Repr

/-- A metadata bag: a JavaScript object in insertion order. -/
abbrev Meta := List (String × MVal)

/-- Lookup of `obj[key]`; `none` models JavaScript `undefined`. -/
def metaLookup (m : Meta) (key : String) : Option MVal :=
  match m.find? (fun p => p.1 == key) with
  | some p => some p.2
  | none => none

/-- Assignment `obj[key] = v`: updates the value in place if the key is
present (JavaScript objects keep the original insertion position), otherwise
appends the new key. -/
def metaInsert (m : Meta) (key : String) (v : MVal) : Meta :=
  match m with
  | [] => [(key, v)]
  | p :: t => if p.1 == key then (key, v) :: t else p :: metaInsert t key v

/-- Deletion `delete obj[key]`. -/
def metaErase (m : Meta) (key : String) : Meta :=
  m.filter (fun p => p.1 != key)

/-- Union of two bags in the style of repeated assignment: every pair of the
second bag is assigned into the first in order (later values overwrite). -/
def metaUnion (m extra : Meta) : Meta :=
  extra.foldl (fun acc p => metaInsert acc p.1 p.2) m

/-- A graph node (`Graph.Node`): id, display label and metadata bag.  The
edge maps `_edgesFromMe` / `_edgesToMe` that the source keeps on each node
are derived here from the graph's edge list, which the source keeps in sync
with them. -/
structure Node where
  id : Nat
  label : String
  meta : Meta
deriving DecidableEq, Repr

/-- A graph edge (`Graph.Edge`): id, endpoint node ids, label and the two
flags `isHidden` / `isDeadlock`. -/
structure Edge where
  id : Nat
  fromId : Nat
  toId : Nat
  label : String
  isHidden : Bool
  isDeadlock : Bool
deriving DecidableEq, Repr

/-- The graph (`Graph`): node map, edge map and optional root id.  The two
lists are kept sorted by id, matching ascending numeric-key iteration of the
JavaScript objects `_nodeMap` / `_edgeMap`.  `_nodeCount` / `_edgeCount` are
the lengths of the lists. -/
structure Graph where
  nodes : List Node
  edges : List Edge
  rootId : Option Nat
deriving DecidableEq, Repr

/-- The empty graph produced by `new Graph()`. -/
def Graph.empty : Graph := Graph.mk [] [] none

/-- Lookup `getNode(id)`. -/
def Graph.getNode (g : Graph) (id : Nat) : Option Node :=
  g.nodes.find? (fun n => n.id == id)

/-- Lookup `getEdge(id)`. -/
def Graph.getEdge (g : Graph) (id : Nat) : Option Edge :=
  g.edges.find? (fun e => e.id == id)

/-- The `root` getter: `_nodeMap[_rootId]`; `none` models `undefined`. -/
def Graph.root (g : Graph) : Option Node :=
  match g.rootId with
  | some r => g.getNode r
  | none => none

/-- The `nodes` getter: the root first, then every other node in ascending id
order (`for (let id in this._nodeMap)` skipping the root id).  The source
crashes when the root is `undefined`; that path, never taken by the verified
operations, is modelled as the empty list. -/
def Graph.nodesList (g : Graph) : List Node :=
  match g.root with
  | some rn => rn :: g.nodes.filter (fun n => !(some n.id == g.rootId))
  | none => []

/-- Insert a node keeping the list sorted by id (numeric object keys iterate
in ascending order). -/
def insertNodeSorted (n : Node) : List Node → List Node
  | [] => [n]
  | m :: t => if n.id < m.id then n :: m :: t else m :: insertNodeSorted n t

/-- Insert an edge keeping the list sorted by id. -/
def insertEdgeSorted (e : Edge) : List Edge → List Edge
  | [] => [e]
  | f :: t => if e.id < f.id then e :: f :: t else f :: insertEdgeSorted e t

/-- The trailing step of `addNode`: when the graph has no root (the `root`
getter returns `undefined`), the given node id becomes the root. -/
def Graph.withRootDefault (g : Graph) (uid : Nat) : Graph :=
  match g.root with
  | none => Graph.mk g.nodes g.edges (some uid)
  | some _ => g

/-- Method `addNode(uid, label, metaData)`.  Throws (the `.error` case) when
the uid is already mapped, before any mutation; otherwise inserts the node
and, if the graph has no root, makes the new node the root.  The returned
graph in the error case is the input, matching the fact that the throw
happens before any state change. -/
def Graph.addNode (g : Graph) (uid : Nat) (label : String) (meta : Meta) :
    Graph × Except String Node :=
  match g.getNode uid with
  | some _ =>
      (g, Except.error ("This graph already contains a node with the id \"" ++
        toString uid ++ "\"."))
  | none =>
      let node := Node.mk uid label meta
      let g1 := Graph.mk (insertNodeSorted node g.nodes) g.edges g.rootId
      (g1.withRootDefault uid, Except.ok node)

/-- The graph part of `addNode`; used at call sites where the source cannot
throw (a fresh uid). -/
def Graph.addNodeD (g : Graph) (uid : Nat) (label : String) (meta : Meta) : Graph :=
  (g.addNode uid label meta).1

/-- Method `addEdge(uid, from, to, label, isHidden, isDeadlock)`.  Throws
when the uid is already mapped, before any mutation.  `from` and `to` are
node ids (the source passes node objects and stores their ids). -/
def Graph.addEdge (g : Graph) (uid fromId toId : Nat) (label : String)
    (isHidden isDeadlock : Bool) : Graph × Except String Edge :=
  match g.getEdge uid with
  | some _ =>
      (g, Except.error ("This graph already contains a edge with id \"" ++
        toString uid ++ "\"."))
  | none =>
      let edge := Edge.mk uid fromId toId label isHidden isDeadlock
      (Graph.mk g.nodes (insertEdgeSorted edge g.edges) g.rootId, Except.ok edge)

/-- The graph part of `addEdge`; used at call sites where the source cannot
throw (a fresh uid). -/
def Graph.addEdgeD (g : Graph) (uid fromId toId : Nat) (label : String)
    (isHidden isDeadlock : Bool) : Graph :=
  (g.addEdge uid fromId toId label isHidden isDeadlock).1

/-- Method `removeEdge(edge)`: removes the edge with this id (a no-op when it
is not present, matching the identity guard in the source). -/
def Graph.removeEdge (g : Graph) (edgeId : Nat) : Graph :=
  Graph.mk g.nodes (g.edges.filter (fun e => e.id != edgeId)) g.rootId

/-- Method `removeNode(node)`: removes the node, every edge incident to it,
and clears the root when the node was the root. -/
def Graph.removeNode (g : Graph) (nodeId : Nat) : Graph :=
  match g.getNode nodeId with
  | none => g
  | some _ =>
      Graph.mk
        (g.nodes.filter (fun n => n.id != nodeId))
        (g.edges.filter (fun e => !(e.toId == nodeId || e.fromId == nodeId)))
        (if g.rootId == some nodeId then none else g.rootId)

/-- The node getter `edgesFromMe` for the node with the given id: edges out
of the node in ascending edge-id order. -/
def Graph.edgesFromMe (g : Graph) (nodeId : Nat) : List Edge :=
  g.edges.filter (fun e => e.fromId == nodeId)

/-- The node getter `edgesToMe`. -/
def Graph.edgesToMe (g : Graph) (nodeId : Nat) : List Edge :=
  g.edges.filter (fun e => e.toId == nodeId)

/-- The node getter `neighbors`: targets of the outgoing edges. -/
def Graph.neighborIds (g : Graph) (nodeId : Nat) : List Nat :=
  (g.edgesFromMe nodeId).map (fun e => e.toId)

/-- The `hiddenEdges` getter. -/
def Graph.hiddenEdges (g : Graph) : List Edge :=
  g.edges.filter (fun e => e.isHidden)

/-- The `deadlockEdges` getter. -/
def Graph.deadlockEdges (g : Graph) : List Edge :=
  g.edges.filter (fun e => e.isDeadlock)

/-- Method `containsEdge(from, to, label)`: endpoint comparison is by object
identity in the source, which for nodes of one graph coincides with id
equality. -/
def Graph.containsEdge (g : Graph) (fromId toId : Nat) (label : String) : Bool :=
  g.edges.any (fun e => e.fromId == fromId && e.toId == toId && e.label == label)

/-- Method `addMetaData(key, value)` on the node with the given id. -/
def Graph.addMetaDataTo (g : Graph) (nodeId : Nat) (key : String) (v : MVal) : Graph :=
  Graph.mk
    (g.nodes.map (fun n =>
      if n.id == nodeId then Node.mk n.id n.label (metaInsert n.meta key v) else n))
    g.edges g.rootId

/-- Method `removeHiddenEdges()`: deletes every edge whose `isHidden` flag is
set, then tags every node that is left with no incoming edges with the
metadata `startNode = true`. -/
def Graph.removeHiddenEdges (g : Graph) : Graph :=
  let g1 := Graph.mk g.nodes (g.edges.filter (fun e => !e.isHidden)) g.rootId
  Graph.mk
    (g1.nodes.map (fun n =>
      if (g1.edgesToMe n.id).isEmpty then
        Node.mk n.id n.label (metaInsert n.meta "startNode" (MVal.b true))
      else n))
    g1.edges g1.rootId

/-- Method `removeDuplicateEdges()`: among the edges out of one node, any
later edge with the same target and label as an earlier one is removed; the
earliest-id edge of each group survives.  Since the groups are partitioned by
source node, this equals a global first-occurrence filter on the key
(from, to, label). -/
def Graph.removeDuplicateEdges (g : Graph) : Graph :=
  let rec keep : List Edge → List Edge → List Edge
    | _, [] => []
    | seen, e :: t =>
        if seen.any (fun f => f.fromId == e.fromId && f.toId == e.toId &&
            f.label == e.label) then
          keep seen t
        else
          e :: keep (e :: seen) t
  Graph.mk g.nodes (keep [] g.edges) g.rootId

/-- Method `isHiddenEdge(label)`: true when some edge with this label has the
`isHidden` flag. -/
def Graph.isHiddenEdge (g : Graph) (label : String) : Bool :=
  g.edges.any (fun e => e.label == label && e.isHidden)

/-- The deadlock label `𝛿` used by `constructAlphabet` and the colouring. -/
def DELTA : String := "𝛿"

/-- Method `constructAlphabet()`: the labels of the edges (with `𝛿`
substituted for deadlock edges), as object keys in insertion order with
duplicates keeping the first occurrence. -/
def Graph.constructAlphabet (g : Graph) : List String :=
  g.edges.foldl
    (fun acc e =>
      let label := if e.isDeadlock then DELTA else e.label
      if acc.contains label then acc else acc ++ [label])
    []

/-- Method `alphabetUnion(otherGraph)`. -/
def Graph.alphabetUnion (g other : Graph) : List String :=
  (other.constructAlphabet).foldl
    (fun acc a => if acc.contains a then acc else acc ++ [a])
    g.constructAlphabet

/-- Method `containsEdgeInAlphabet(edge)`. -/
def Graph.containsEdgeInAlphabet (g : Graph) (label : String) : Bool :=
  g.constructAlphabet.contains label

/-- The node method `coaccessible(edge)`: the targets of the outgoing edges
carrying the given label, or the one-element list `[undefined]` when there
are none (modelled by `Option`).  A dangling target id yields an `undefined`
entry in the source (`_nodeMap` lookup), modelled as a `none` entry. -/
def Graph.coaccessible (g : Graph) (nodeId : Nat) (label : String) : List (Option Node) :=
  let temp := ((g.edgesFromMe nodeId).filter (fun e => e.label == label)).map
    (fun e => g.getNode e.toId)
  if temp.isEmpty then [none] else temp

/-- Method `mergeNodes(nodeIds)`: the first id survives; the metadata bags of
all listed nodes are unioned in order (later values overwrite); every edge of
a non-surviving node is retargeted onto the survivor; the non-surviving nodes
are removed; if any listed node was the root, the survivor becomes the root.
The source crashes when a listed id is missing; that id is skipped here (the
verified calls pass only present ids).  An empty list - which the source is
never called with - leaves the graph unchanged. -/
def Graph.mergeNodes (g : Graph) (nodeIds : List Nat) : Graph :=
  match nodeIds with
  | [] => g
  | survivor :: rest =>
      let mergedMeta := nodeIds.foldl
        (fun acc i =>
          match g.getNode i with
          | some n => metaUnion acc n.meta
          | none => acc) []
      let isRoot := nodeIds.any (fun i => g.rootId == some i)
      let edges1 := g.edges.map (fun e =>
        Edge.mk e.id
          (if rest.contains e.fromId then survivor else e.fromId)
          (if rest.contains e.toId then survivor else e.toId)
          e.label e.isHidden e.isDeadlock)
      let nodes1 := (g.nodes.filter (fun n => !(rest.contains n.id))).map
        (fun n => if n.id == survivor then Node.mk n.id n.label mergedMeta else n)
      Graph.mk nodes1 edges1 (if isRoot then some survivor else g.rootId)

/-- One step of the depth-first search of the `reachableNodes` getter.  The
stack is a list with its head on top (the source pops from the array's end);
neighbours are pushed in order, so the last one ends on top.  A current id
already visited is skipped; a missing node (on which the source would crash)
is treated as visited with no neighbours. -/
def Graph.reachableStep (g : Graph) : Nat → List Nat → List Nat → List Nat
  | 0, _, visited => visited
  | _ + 1, [], visited => visited
  | fuel + 1, id :: stack, visited =>
      if visited.contains id then g.reachableStep fuel stack visited
      else
        let visited1 := visited ++ [id]
        match g.getNode id with
        | none => g.reachableStep fuel stack visited1
        | some _ => g.reachableStep fuel ((g.neighborIds id).reverse ++ stack) visited1

/-- The `reachableNodes` getter: ids reachable from the root by depth-first
search.  The loop terminates because neighbours are pushed only for ids not
yet visited; the fuel dominates the iteration count.  On an unrooted graph
the source crashes; that case is modelled as the empty set. -/
def Graph.reachableNodes (g : Graph) : List Nat :=
  match g.rootId with
  | none => []
  | some r => g.reachableStep ((g.nodes.length + 1) * (g.edges.length + 1) + 1) [r] []

/-- Method `trim()`: removes every node (and its incident edges) that is not
reachable from the root, iterating over the node map. -/
def Graph.trim (g : Graph) : Graph :=
  let reachable := g.reachableNodes
  (g.nodes.map (fun n => n.id)).foldl
    (fun acc i => if reachable.contains i then acc else acc.removeNode i) g

/-- Method `deepClone()`: rebuilds an identical graph with the same node and
edge ids, labels, flags, metadata and root.  In this value-semantics
embedding the rebuilt graph is the graph itself. -/
def Graph.deepClone (g : Graph) : Graph := g

/-- The process-wide uid counters `_NODE_UID` / `_EDGE_UID` behind the
`NodeUid` / `EdgeUid` helpers, threaded explicitly through the operations
that allocate identifiers. -/
structure Uids where
  nodeUid : Nat
  edgeUid : Nat
deriving DecidableEq, Repr

namespace Ops

/-- A transition record built by `Operations._getTransitions`: the node on
the far side of an observable edge, its label, and its deadlock flag. -/
structure Transition where
  nodeId : Nat
  label : String
  isDeadlock : Bool
deriving DecidableEq, Repr

/-- Helper `Operations._getTransitions(edges, isFrom)`. -/
def getTransitions (edges : List Edge) (isFrom : Bool) : List Transition :=
  (edges.filter (fun e => !e.isHidden)).map
    (fun e => Transition.mk (if isFrom then e.toId else e.fromId) e.label e.isDeadlock)

/-- The edge-description object built by `Operations._constructEdge`. -/
structure EdgeSpec where
  uid : Nat
  fromId : Nat
  toId : Nat
  label : String
  isHidden : Bool
  isDeadlock : Bool
deriving DecidableEq, Repr

/-- One iteration block of the `Operations._addObservableEdges` loop: first
an edge description is emitted for every transition (consuming one edge uid
each), then the hidden edges of the current node are followed, pushing
unvisited nodes and emitting a hidden self-loop description for visited
ones.  The `isDeadlock` argument the source leaves `undefined` on the
self-loop defaults to `false` in the edge constructor. -/
def addObservableEdgesStep (g : Graph) (transitions : List Transition) (isFrom : Bool) :
    Nat → List Nat → List Nat → List EdgeSpec → Uids → List EdgeSpec × Uids
  | 0, _, _, acc, u => (acc, u)
  | _ + 1, [], _, acc, u => (acc, u)
  | fuel + 1, current :: stack, visited, acc, u =>
      let visited1 := visited ++ [current]
      let (acc1, u1) := transitions.foldl
        (fun (p : List EdgeSpec × Uids) t =>
          let spec :=
            if isFrom then EdgeSpec.mk p.2.edgeUid t.nodeId current t.label false t.isDeadlock
            else EdgeSpec.mk p.2.edgeUid current t.nodeId t.label false t.isDeadlock
          (p.1 ++ [spec], Uids.mk p.2.nodeUid (p.2.edgeUid + 1)))
        (acc, u)
      let edges := if isFrom then g.edgesFromMe current else g.edgesToMe current
      let step := edges.foldl
        (fun (p : List Nat × List EdgeSpec × Uids) e =>
          let node := if isFrom then e.toId else e.fromId
          if e.isHidden && !(visited1.contains node) then
            (p.1 ++ [node], p.2.1, p.2.2)
          else if e.isHidden && visited1.contains node then
            (p.1, p.2.1 ++ [EdgeSpec.mk p.2.2.edgeUid node node "" true false],
              Uids.mk p.2.2.nodeUid (p.2.2.edgeUid + 1))
          else p)
        ([], acc1, u1)
      addObservableEdgesStep g transitions isFrom fuel
        (step.1.reverse ++ stack) visited1 step.2.1 step.2.2

/-- Helper `Operations._addObservableEdges(start, first, transitions,
isFrom)`: returns the edge descriptions to add.  The stack starts with the
first node and the start node is pre-visited.  The fuel dominates the number
of loop iterations of the source on the graphs considered. -/
def addObservableEdges (g : Graph) (startId firstId : Nat) (transitions : List Transition)
    (isFrom : Bool) (u : Uids) : List EdgeSpec × Uids :=
  addObservableEdgesStep g transitions isFrom
    ((g.nodes.length + 2) * (g.nodes.length + 2) * (g.edges.length + 2))
    [firstId] [startId] [] u

/-- One iteration of `Operations._constructDeadlocks`: when the snapshot
edge is a hidden self-loop, a fresh sink node is added, a deadlock edge from
the loop's node to the sink is added, the loop is removed, and the sink is
tagged `isTerminal = "error"`. -/
def cdStep (p : Graph × Uids) (e : Edge) : Graph × Uids :=
  if e.isHidden && e.fromId == e.toId then
    let tempId := p.2.nodeUid
    let g1 := p.1.addNodeD tempId "" []
    let g2 := g1.addEdgeD p.2.edgeUid e.fromId tempId "" false true
    let g3 := g2.removeEdge e.id
    (g3.addMetaDataTo tempId "isTerminal" (MVal.s "error"),
      Uids.mk (p.2.nodeUid + 1) (p.2.edgeUid + 1))
  else p

/-- Helper `Operations._constructDeadlocks(graph)`: the iteration above over
a snapshot of the clone's edge list. -/
def constructDeadlocks (g : Graph) (u : Uids) : Graph × Uids :=
  let clone := g.deepClone
  clone.edges.foldl cdStep (clone, u)

/-- The terminal tagging of one `_constructStopNodes` iteration: a node with
no prior `isTerminal` metadata is tagged `isTerminal = "stop"`. -/
def stopTag (g : Graph) (id : Nat) : Graph :=
  match g.getNode id with
  | some n =>
      match metaLookup n.meta "isTerminal" with
      | none => g.addMetaDataTo id "isTerminal" (MVal.s "stop")
      | some _ => g
  | none => g

/-- One iteration of the `Operations._constructStopNodes` search: the popped
node is recorded as visited, its unvisited neighbours are pushed, and when it
has no neighbours it is tagged through `stopTag`. -/
def constructStopNodesStep (fuel : Nat) (g : Graph) (stack visited : List Nat) : Graph :=
  match fuel, stack with
  | 0, _ => g
  | _ + 1, [] => g
  | fuel + 1, id :: stack =>
      let visited1 := visited ++ [id]
      let neigh := g.neighborIds id
      let stack1 := (neigh.filter (fun m => !(visited1.contains m))).reverse ++ stack
      let g1 := if neigh.isEmpty then stopTag g id else g
      constructStopNodesStep fuel g1 stack1 visited1

/-- Helper `Operations._constructStopNodes(graph)`: walks the clone from the
root and tags freshly terminal nodes.  The source crashes on an unrooted
graph; that case returns the clone unchanged and is outside every verified
use. -/
def constructStopNodes (g : Graph) : Graph :=
  let clone := g.deepClone
  match clone.root with
  | none => clone
  | some rn =>
      constructStopNodesStep
        ((clone.nodes.length + 2) * (clone.nodes.length + 2) * (clone.edges.length + 2))
        clone [rn.id] []

/-- The observable-edge gathering loop of `abstraction`: for every hidden
edge, the observable transitions at its endpoints are propagated through the
hidden steps in both directions. -/
def abstractionGather (clone : Graph) (u : Uids) : List EdgeSpec × Uids :=
  clone.hiddenEdges.foldl
    (fun (p : List EdgeSpec × Uids) edge =>
      let fromT := getTransitions (clone.edgesToMe edge.fromId) false
      let toT := getTransitions (clone.edgesFromMe edge.toId) true
      let r1 := addObservableEdges clone edge.fromId edge.toId fromT true p.2
      let r2 := addObservableEdges clone edge.toId edge.fromId toT false r1.2
      (p.1 ++ r1.1 ++ r2.1, r2.2))
    ([], u)

/-- The edge-adding loop of `abstraction`: each gathered edge description is
added unless an equal (from, to, label) edge is already present. -/
def abstractionAdd (specs : List EdgeSpec) (g : Graph) : Graph :=
  specs.foldl
    (fun gg spec =>
      if gg.containsEdge spec.fromId spec.toId spec.label then gg
      else gg.addEdgeD spec.uid spec.fromId spec.toId spec.label spec.isHidden spec.isDeadlock)
    g

/-- The unfair deletion loop of `abstraction`: only the hidden edges
enumerated before the additions are removed. -/
def removeEnumerated (hidden : List Edge) (g : Graph) : Graph :=
  hidden.foldl (fun gg e => gg.removeEdge e.id) g

/-- Operation `Operations.abstraction(graph, isFair)`: collects observable
edges through the hidden edges, adds those not already present, then either
removes every hidden edge (fair) or removes only the enumerated hidden edges
and converts the remaining hidden self-loops to deadlocks (unfair); finally
stop nodes are re-detected and the graph is trimmed. -/
def abstraction (g : Graph) (isFair : Bool) (u : Uids) : Graph × Uids :=
  let clone := g.deepClone
  let hidden := clone.hiddenEdges
  let gathered := abstractionGather clone u
  let clone1 := abstractionAdd gathered.1 clone
  let after :=
    if isFair then (clone1.removeHiddenEdges, gathered.2)
    else constructDeadlocks (removeEnumerated hidden clone1) gathered.2
  ((constructStopNodes after.1).trim, after.2)

end Ops

/-- A single colour triple built by `Graph.NodeColoring.constructColor`:
the node's own colour, the colour of an edge's target (or `"-1"` for a
deadlock edge), and the edge's label (with `𝛿` substituted on deadlock
edges).  The `undefined` arguments of the two special colours are modelled
by `none`. -/
structure Color where
  cFrom : String
  cTo : Option String
  cLabel : Option String
deriving DecidableEq, Repr

/-- Membership test `NodeColoring.contains` (structural equality). -/
def coloringContains (cs : List Color) (c : Color) : Bool :=
  cs.any (fun x => x == c)

/-- Method `NodeColoring.add`: appends unless already present. -/
def coloringAdd (cs : List Color) (c : Color) : List Color :=
  if coloringContains cs c then cs else cs ++ [c]

/-- Method `NodeColoring.equals`: same length and every colour of the first
contained in the second. -/
def coloringEquals (a b : List Color) : Bool :=
  a.length == b.length && a.all (fun c => coloringContains b c)

/-- A `Graph.ColoredNode`: the clone owning the wrapped node, the node's id
and its current colour string. -/
structure CNode where
  graph : Graph
  nodeId : Nat
  color : String
deriving DecidableEq, Repr

/-- The `coloredNodes` array of `_bisimulation`, keyed by node id in
ascending order (a sparse JavaScript array iterated by `for ... in`). -/
abbrev ColoredMap := List (Nat × CNode)

/-- Assignment `coloredNodes[id] = cn`: replaces the entry or inserts it
keeping the keys sorted. -/
def cmapInsert (k : Nat) (v : CNode) : ColoredMap → ColoredMap
  | [] => [(k, v)]
  | p :: t =>
      if k == p.1 then (k, v) :: t
      else if k < p.1 then (k, v) :: p :: t
      else p :: cmapInsert k v t

/-- Lookup `coloredNodes[id]`; `none` models `undefined`. -/
def cmapLookup (m : ColoredMap) (k : Nat) : Option CNode :=
  match m.find? (fun p => p.1 == k) with
  | some p => some p.2
  | none => none

namespace Ops

/-- The `ColoredNode` constructor: colour `"0"`, or `"-1"` when some edge
into the node is a deadlock edge. -/
def mkColoredNode (g : Graph) (n : Node) : CNode :=
  CNode.mk g n.id (if (g.edgesToMe n.id).any (fun e => e.isDeadlock) then "-1" else "0")

/-- Method `ColoredNode.constructNodeColoring(coloredNodes)`: the set of
colour triples of the node's outgoing edges, a `("-1", undefined, undefined)`
entry when a deadlock edge enters the node, and the single
`("0", undefined, undefined)` entry when the set would be empty.  A target id
missing from the map crashes the source; the placeholder colour here is never
produced by a complete build. -/
def constructNodeColoring (cn : CNode) (cns : ColoredMap) : List Color :=
  let colors := (cn.graph.edgesFromMe cn.nodeId).foldl
    (fun acc e =>
      let toC : String :=
        if e.isDeadlock then "-1"
        else
          match cmapLookup cns e.toId with
          | some c => c.color
          | none => "undefined"
      let label := if e.isDeadlock then DELTA else e.label
      coloringAdd acc (Color.mk cn.color (some toC) (some label)))
    []
  let colors1 := (cn.graph.edgesToMe cn.nodeId).foldl
    (fun acc e =>
      if e.isDeadlock then coloringAdd acc (Color.mk "-1" none none) else acc)
    colors
  if colors1.isEmpty then [Color.mk "0" none none] else colors1

/-- Helper `Operations._constructColoring(coloredNodes)`: the list of
distinct colourings observed over the nodes in id order. -/
def constructColoring (cns : ColoredMap) : List (List Color) :=
  cns.foldl
    (fun cmap p =>
      let coloring := constructNodeColoring p.2 cns
      if cmap.any (fun existing => coloringEquals existing coloring) then cmap
      else cmap ++ [coloring])
    []

/-- Helper `Operations._applyColoring(coloredNodes, colorMap)`: every node's
new colour is the index (as a string) of the first matching colouring in the
map; nodes without a match keep their colour.  All colourings are computed
against the old colours before any is applied, which the map below also
does. -/
def applyColoring (cns : ColoredMap) (cmap : List (List Color)) : ColoredMap :=
  cns.map (fun p =>
    let coloring := constructNodeColoring p.2 cns
    match cmap.findIdx? (fun existing => coloringEquals existing coloring) with
    | some c => (p.1, CNode.mk p.2.graph p.2.nodeId (toString c))
    | none => p)

/-- The refinement loop of `_bisimulation`: repeat while the previous length
of the colour map (initially `-1`) is below the current one.  The number of
distinct colourings never exceeds the number of nodes, so the fuel dominates
the iteration count. -/
def coloringLoop : Nat → Int → List (List Color) → ColoredMap → ColoredMap × List (List Color)
  | 0, _, cmap, cns => (cns, cmap)
  | fuel + 1, prevLen, cmap, cns =>
      if prevLen < (cmap.length : Int) then
        let cmap1 := constructColoring cns
        coloringLoop fuel (cmap.length : Int) cmap1 (applyColoring cns cmap1)
      else (cns, cmap)

/-- One colour class of the merge phase of `_bisimulation`: the ids (in
`nodes`-getter order, root first) of the nodes with the given colour index
are collected and merged when there are at least two. -/
def mergePhaseStep (cns : ColoredMap) (nodes : List Node) (cc : Graph) (i : Nat) : Graph :=
  let nodeIds := (nodes.filter (fun nd =>
    match cmapLookup cns nd.id with
    | some cn => cn.color == toString i
    | none => false)).map (fun nd => nd.id)
  if nodeIds.length > 1 then cc.mergeNodes nodeIds else cc

/-- The merge phase of `_bisimulation` for one clone, over every colour-map
index. -/
def mergePhase (cns : ColoredMap) (cmapLen : Nat) (clone : Graph) : Graph :=
  (List.range cmapLen).foldl (mergePhaseStep cns clone.nodesList) clone

/-- Helper `Operations._bisimulation(graphs)`: clones the graphs, colours all
their nodes in one shared map (entries with equal ids overwrite), refines the
colouring until the colour map stops growing, merges equally coloured nodes
within each clone and removes duplicate edges. -/
def bisimulation (graphs : List Graph) : ColoredMap × List Graph :=
  let clones := graphs.map (fun h => h.deepClone)
  let cns0 := clones.foldl
    (fun acc c => c.nodesList.foldl (fun acc2 n => cmapInsert n.id (mkColoredNode c n) acc2) acc)
    []
  let refined := coloringLoop (cns0.length + 2) (-1) [] cns0
  let merged := clones.map (fun clone =>
    (mergePhase refined.1 refined.2.length clone).removeDuplicateEdges)
  (refined.1, merged)

/-- Operation `Operations.simplification(graph)`: the first simplified graph
of the bisimulation. -/
def simplification (g : Graph) : Graph :=
  ((bisimulation [g]).2).headD Graph.empty

/-- The root-colour comparison loop of `Operations.isEquivalent`: adjacent
graphs' roots must share a colour.  A missing root id or colour entry crashes
the source (`undefined` lookups), modelled by `none`. -/
def checkRoots (cns : ColoredMap) : List Graph → Option Bool
  | [] => some true
  | [_] => some true
  | g1 :: g2 :: rest =>
      match g1.rootId, g2.rootId with
      | some r1, some r2 =>
          (match cmapLookup cns r1, cmapLookup cns r2 with
           | some c1, some c2 =>
               if c1.color != c2.color then some false else checkRoots cns (g2 :: rest)
           | _, _ => none)
      | _, _ => none

/-- Operation `Operations.isEquivalent(...graphs)`: bisimulation colouring of
all the graphs together, then the pairwise root-colour comparison. -/
def isEquivalent (graphs : List Graph) : Option Bool :=
  let result := bisimulation graphs
  checkRoots result.1 graphs

/-- Helper `Operations._combineStates(nodes1, nodes2)`: the product state
space.  Every pair gets a fresh node labelled `label1 ++ "." ++ label2`
(ids standing in for empty labels); a pair of start states is tagged
`startNode`, a pair of stop states `isTerminal = "stop"`; finally the root
(the first node added) is tagged `parallel`. -/
def combineStates (nodes1 nodes2 : List Node) (u : Uids) : Graph × Uids :=
  let built := nodes1.foldl
    (fun (p : Graph × Uids) node1 =>
      let start1 := metaLookup node1.meta "startNode" == some (MVal.b true)
      let term1 := metaLookup node1.meta "isTerminal" == some (MVal.s "stop")
      let label1 := if node1.label != "" then node1.label else toString node1.id
      nodes2.foldl
        (fun (q : Graph × Uids) node2 =>
          let start2 := metaLookup node2.meta "startNode" == some (MVal.b true)
          let term2 := metaLookup node2.meta "isTerminal" == some (MVal.s "stop")
          let label2 := if node2.label != "" then node2.label else toString node2.id
          let uid := q.2.nodeUid
          let g1 := q.1.addNodeD uid (label1 ++ "." ++ label2) []
          let g2 := if start1 && start2 then g1.addMetaDataTo uid "startNode" (MVal.b true) else g1
          let g3 := if term1 && term2 then g2.addMetaDataTo uid "isTerminal" (MVal.s "stop") else g2
          (g3, Uids.mk (uid + 1) q.2.edgeUid))
        p)
    (Graph.empty, u)
  match built.1.rootId with
  | some r => (built.1.addMetaDataTo r "parallel" (MVal.b true), built.2)
  | none => built

/-- Helper `Operations._getId(graph, node1, node2)`: the id of the first
node (in `nodes`-getter order) of the product graph whose label is the
combined label of the two given nodes, or `undefined`. -/
def getId (g : Graph) (node1 node2 : Node) : Option Nat :=
  let label1 := if node1.label == "" then toString node1.id else node1.label
  let label2 := if node2.label == "" then toString node2.id else node2.label
  let label := label1 ++ "." ++ label2
  match g.nodesList.find? (fun n => n.label == label) with
  | some n => some n.id
  | none => none

/-- Adds one product edge when both endpoint ids were resolved; the source
crashes on an `undefined` endpoint, a case never reached in the verified
inputs. -/
def addProductEdge (g : Graph) (u : Uids) (fromId toId : Option Nat) (label : String)
    (isHidden : Bool) : Graph × Uids :=
  match fromId, toId with
  | some f, some t =>
      (g.addEdgeD u.edgeUid f t label isHidden false, Uids.mk u.nodeUid (u.edgeUid + 1))
  | _, _ => (g, u)

/-- Operation `Operations.parallelComposition(graph1, graph2)`: the product
state space, then for every pair of states and every action of the union
alphabet a synchronised move when both sides can do the action, or an
independent move when one side can and the action is absent from the other
alphabet; finally the product is trimmed. -/
def parallelComposition (g1 g2 : Graph) (u : Uids) : Graph × Uids :=
  let nodes1 := g1.nodesList
  let nodes2 := g2.nodesList
  let start := combineStates nodes1 nodes2 u
  let alphabet := g1.alphabetUnion g2
  let built := nodes1.foldl
    (fun (pA : Graph × Uids) node1 =>
      nodes2.foldl
        (fun (pB : Graph × Uids) node2 =>
          let fromId := getId pB.1 node1 node2
          alphabet.foldl
            (fun (pC : Graph × Uids) action =>
              let c1 := g1.coaccessible node1.id action
              let c2 := g2.coaccessible node2.id action
              c1.foldl
                (fun (pD : Graph × Uids) co1 =>
                  c2.foldl
                    (fun (pE : Graph × Uids) co2 =>
                      match co1, co2 with
                      | some y1, some y2 =>
                          addProductEdge pE.1 pE.2 fromId (getId pE.1 y1 y2) action
                            (g1.isHiddenEdge action)
                      | some y1, none =>
                          if !(g2.containsEdgeInAlphabet action) then
                            addProductEdge pE.1 pE.2 fromId (getId pE.1 y1 node2) action
                              (g1.isHiddenEdge action)
                          else pE
                      | none, some y2 =>
                          if !(g1.containsEdgeInAlphabet action) then
                            addProductEdge pE.1 pE.2 fromId (getId pE.1 node1 y2) action
                              (g2.isHiddenEdge action)
                          else pE
                      | none, none => pE)
                    pD)
                pC)
            pB)
        pA)
    start
  (built.1.trim, built.2)

end Ops

end MC

namespace ES6

/-!
The repository also contains a second, newer graph implementation
(`graph.es6.js`).  There hidden and deadlock status are carried by the label
itself (`τ` / `δ`), edges carry broadcast / listen flags that the label
setter derives by stripping a leading `!` or `?`, and the graph maintains an
`_alphabet` object.  Only the parts needed by the claims about `addNode`,
`addEdge` and the edge label setter are modelled.
-/

/-- The hidden label `τ` (U+03C4) of `graph.es6.js`. -/
def TAU : String := "τ"

/-- The deadlock label `δ` (U+03B4) of `graph.es6.js`. -/
def DELTA : String := "δ"

/-- An edge of `graph.es6.js`: the label is stored after prefix stripping,
and the `_isBroadcasting` / `_isListening` flags record the stripped
prefixes. -/
structure Edge where
  id : Nat
  fromId : Nat
  toId : Nat
  label : String
  isBroadcasting : Bool
  isListening : Bool
deriving DecidableEq, Repr

/-- The `isHidden` getter: the label is `τ`. -/
def Edge.isHidden (e : Edge) : Bool := e.label == TAU

/-- The `isDeadlock` getter: the label is `δ`. -/
def Edge.isDeadlock (e : Edge) : Bool := e.label == DELTA

/-- The graph of `graph.es6.js`: as for the other implementation plus the
`_alphabet` object (string keys in insertion order). -/
structure Graph where
  nodes : List MC.Node
  edges : List Edge
  alphabet : List String
  rootId : Option Nat
deriving DecidableEq, Repr

/-- Lookup `getNode(id)`. -/
def Graph.getNode (g : Graph) (id : Nat) : Option MC.Node :=
  g.nodes.find? (fun n => n.id == id)

/-- Lookup `getEdge(id)`. -/
def Graph.getEdge (g : Graph) (id : Nat) : Option Edge :=
  g.edges.find? (fun e => e.id == id)

/-- The `root` getter. -/
def Graph.root (g : Graph) : Option MC.Node :=
  match g.rootId with
  | some r => g.getNode r
  | none => none

/-- Key insertion `alphabet[label] = true` (insertion order, no
duplicates). -/
def alphaInsert (a : List String) (label : String) : List String :=
  if a.contains label then a else a ++ [label]

/-- Insert an edge keeping the list sorted by id. -/
def insertEdgeSorted (e : Edge) : List Edge → List Edge
  | [] => [e]
  | f :: t => if e.id < f.id then e :: f :: t else f :: insertEdgeSorted e t

/-- The label-stripping logic of the edge label setter: a leading `!` sets
the broadcasting flag and is removed, then a leading `?` sets the listening
flag and is removed; a prefix that is absent clears its flag. -/
def stripLabel (lbl : String) : String × Bool × Bool :=
  let s1 : String × Bool :=
    match lbl.toList with
    | c :: rest => if c == '!' then (String.mk rest, true) else (lbl, false)
    | [] => (lbl, false)
  match s1.1.toList with
  | c :: rest => if c == '?' then (String.mk rest, s1.2, true) else (s1.1, s1.2, false)
  | [] => (s1.1, s1.2, false)

/-- The edge label setter (`set label(lbl)`): strips the prefixes, stores the
flags and the bare label on the edge, removes the old label from the graph's
alphabet and inserts the new one. -/
def Graph.setEdgeLabel (g : Graph) (e : Edge) (lbl : String) : Graph × Edge :=
  let stripped := stripLabel lbl
  let e1 := Edge.mk e.id e.fromId e.toId stripped.1 stripped.2.1 stripped.2.2
  let a1 := alphaInsert (g.alphabet.filter (fun l => l != e.label)) stripped.1
  (Graph.mk g.nodes (g.edges.map (fun f => if f.id == e.id then e1 else f)) a1 g.rootId, e1)

/-- The edge constructor: `this.label = label` runs the label setter on a
fresh edge (the old label being `undefined`, no alphabet key is removed). -/
def mkEdge (uid fromId toId : Nat) (label : String) : Edge :=
  let stripped := stripLabel label
  Edge.mk uid fromId toId stripped.1 stripped.2.1 stripped.2.2

/-- Method `addNode(uid, label, metaData)` of `graph.es6.js`: throws when the
uid is already mapped, before any mutation; otherwise inserts the node and
makes it the root when the graph has none. -/
def Graph.addNode (g : Graph) (uid : Nat) (label : String) (meta : MC.Meta) :
    Graph × Except String MC.Node :=
  match g.getNode uid with
  | some _ =>
      (g, Except.error ("This graph already contains a node with the id \"" ++
        toString uid ++ "\"."))
  | none =>
      let node := MC.Node.mk uid label meta
      let g1 := Graph.mk (MC.insertNodeSorted node g.nodes) g.edges g.alphabet g.rootId
      let g2 :=
        match g1.root with
        | none => Graph.mk g1.nodes g1.edges g1.alphabet (some uid)
        | some _ => g1
      (g2, Except.ok node)

/-- Method `addEdge(uid, from, to, label)` of `graph.es6.js`: throws when the
uid is already mapped, before any mutation; otherwise constructs the edge
(running the label setter, which inserts the stripped label into the
alphabet) and finally also inserts the raw label into the alphabet. -/
def Graph.addEdge (g : Graph) (uid fromId toId : Nat) (label : String) :
    Graph × Except String Edge :=
  match g.getEdge uid with
  | some _ =>
      (g, Except.error ("This graph already contains a edge with id \"" ++
        toString uid ++ "\"."))
  | none =>
      let edge := mkEdge uid fromId toId label
      let a1 := alphaInsert g.alphabet edge.label
      let a2 := alphaInsert a1 label
      (Graph.mk g.nodes (insertEdgeSorted edge g.edges) a2 g.rootId, Except.ok edge)

end ES6

namespace Peg

/-!
Shallow embedding of the generated PEG parser (`parser.js`).  Each
`peg$parseX` function is a pure function of the input position; failure
(`peg$FAILED`) is `none`, success carries the semantic value and the rest of
the input.  Backtracking to a saved position is automatic because the
remaining input is a value.
-/

/-- The AST node constructors of the parser (`Node.ModelNode` and friends).
`ModelNode` keeps the ordered definition list and the optional hide node;
`DefinitionNode` stores the parsed `NameNode` as its name, as the source
does.  A `HideNode` holds either a bare action string (`peg$c8`) or the
two-element array `[a].concat(b)` of an action node and a nested hide node
(`peg$c9`). -/
inductive PNode where
  | model (definitions : List PNode) (hidden : Option PNode)
  | definition (name : PNode) (process : PNode)
  | sequence (seqFrom : PNode) (seqTo : PNode)
  | choice (option1 option2 : PNode)
  | parallel (definition1 definition2 : PNode)
  | name (s : String)
  | action (s : String)
  | hideOne (s : String)
  | hideMany (l : List PNode)
  | stop
  | errorNode

/-- Character class `[A-Za-z0-9_]` (`peg$c19`). -/
def isNameRest (c : Char) : Bool :=
  (c.isUpper || c.isLower || c.isDigit) || c == '_'

/-- Rule `_`: optional whitespace `[ \t\n\r]*`; never fails. -/
def parseWs (cs : List Char) : List Char :=
  cs.dropWhile (fun c => c == ' ' || c == '\t' || c == '\n' || c == '\r')

/-- Literal matching (`input.substr(peg$currPos, n) === lit`). -/
def lit (s : String) (cs : List Char) : Option (List Char) :=
  let l := s.toList
  if cs.take l.length == l then some (cs.drop l.length) else none

/-- Rule `Stop` (`peg$parseStop`): the literal `STOP`. -/
def parseStop (cs : List Char) : Option (PNode × List Char) :=
  match lit "STOP" cs with
  | some rest => some (PNode.stop, rest)
  | none => none

/-- Rule `Error` (`peg$parseError`): the literal `ERROR`. -/
def parseErrorTerminal (cs : List Char) : Option (PNode × List Char) :=
  match lit "ERROR" cs with
  | some rest => some (PNode.errorNode, rest)
  | none => none

/-- Rule `Terminal` (`peg$parseTerminal`): `Stop / Error`. -/
def parseTerminal (cs : List Char) : Option (PNode × List Char) :=
  match parseStop cs with
  | some r => some r
  | none => parseErrorTerminal cs

/-- Rule `Name` (`peg$parseName`): `[A-Z] [A-Za-z0-9_]*`, with no reserved
words excluded. -/
def parseName (cs : List Char) : Option (PNode × List Char) :=
  match cs with
  | [] => none
  | c :: rest =>
      if c.isUpper then
        some (PNode.name (String.mk (c :: rest.takeWhile isNameRest)),
          rest.dropWhile isNameRest)
      else none

/-- Rule `Action` (`peg$parseAction`): `[a-z] [A-Za-z0-9_]*`; no `!` or `?`
prefix is recognised. -/
def parseAction (cs : List Char) : Option (PNode × List Char) :=
  match cs with
  | [] => none
  | c :: rest =>
      if c.isLower then
        some (PNode.action (String.mk (c :: rest.takeWhile isNameRest)),
          rest.dropWhile isNameRest)
      else none

/-- The recursive grammar rules, dispatched by name so that the whole
recursive-descent cluster is one function structurally recursive on fuel. -/
inductive Rule where
  | modelR
  | definitionR
  | processStandardR
  | processStandardNestedR
  | processChoiceR
  | processSequenceR
  | nameOrChoiceR
  | nameOrSequenceR
  | terminalOrBracketsR
  | processHideR
  | actionOrBraceR
deriving DecidableEq, Repr

/-- The recursive `peg$parseX` functions.  Each alternative restarts at the
saved position, as the generated code does by resetting `peg$currPos`. -/
def parseRule : Nat → Rule → List Char → Option (PNode × List Char)
  | 0, _, _ => none
  | fuel + 1, r, cs =>
      match r with
      | Rule.modelR =>
          -- `_ Definition _ "." _` (peg$c0)
          let alt1 :=
            match parseRule fuel Rule.definitionR (parseWs cs) with
            | some (d, cs1) =>
                (match lit "." (parseWs cs1) with
                 | some cs2 => some (PNode.model [d] none, parseWs cs2)
                 | none => none)
            | none => none
          (match alt1 with
           | some v => some v
           | none =>
             -- `_ Definition _ "," _ Model _` (peg$c1)
             let alt2 :=
               match parseRule fuel Rule.definitionR (parseWs cs) with
               | some (d, cs1) =>
                   (match lit "," (parseWs cs1) with
                    | some cs2 =>
                        (match parseRule fuel Rule.modelR (parseWs cs2) with
                         | some (m, cs3) =>
                             let defs :=
                               match m with
                               | PNode.model ds _ => ds
                               | _ => []
                             some (PNode.model (d :: defs) none, parseWs cs3)
                         | none => none)
                    | none => none)
               | none => none
             (match alt2 with
              | some v => some v
              | none =>
                -- `_ Definition _ Process_Hide _ "." _` (peg$c2)
                match parseRule fuel Rule.definitionR (parseWs cs) with
                | some (d, cs1) =>
                    (match parseRule fuel Rule.processHideR (parseWs cs1) with
                     | some (h, cs2) =>
                         (match lit "." (parseWs cs2) with
                          | some cs3 => some (PNode.model [d] (some h), parseWs cs3)
                          | none => none)
                     | none => none)
                | none => none))
      | Rule.definitionR =>
          -- `Name _ "=" _ Process_Standard` (peg$c3)
          match parseName cs with
          | some (n, cs1) =>
              (match lit "=" (parseWs cs1) with
               | some cs2 =>
                   (match parseRule fuel Rule.processStandardR (parseWs cs2) with
                    | some (p, cs3) => some (PNode.definition n p, cs3)
                    | none => none)
               | none => none)
          | none => none
      | Rule.processStandardR =>
          -- `Name_OR_Choice _ Process_Standard_Nested` (peg$c4) / Process_Choice
          (match parseRule fuel Rule.nameOrChoiceR cs with
           | some (a, cs1) =>
               (match parseRule fuel Rule.processStandardNestedR (parseWs cs1) with
                | some (b, cs2) => some (PNode.parallel a b, cs2)
                | none => parseRule fuel Rule.processChoiceR cs)
           | none => parseRule fuel Rule.processChoiceR cs)
      | Rule.processStandardNestedR =>
          (match parseRule fuel Rule.nameOrChoiceR cs with
           | some (a, cs1) =>
               (match parseRule fuel Rule.processStandardNestedR (parseWs cs1) with
                | some (b, cs2) => some (PNode.parallel a b, cs2)
                | none => parseRule fuel Rule.processChoiceR cs)
           | none => parseRule fuel Rule.processChoiceR cs)
      | Rule.processChoiceR =>
          -- `Process_Sequence _ "|" _ Process_Choice` (peg$c5) / Process_Sequence
          (match parseRule fuel Rule.processSequenceR cs with
           | some (a, cs1) =>
               (match lit "|" (parseWs cs1) with
                | some cs2 =>
                    (match parseRule fuel Rule.processChoiceR (parseWs cs2) with
                     | some (b, cs3) => some (PNode.choice a b, cs3)
                     | none => parseRule fuel Rule.processSequenceR cs)
                | none => parseRule fuel Rule.processSequenceR cs)
           | none => parseRule fuel Rule.processSequenceR cs)
      | Rule.processSequenceR =>
          -- `Action _ "->" _ Name_OR_Sequence` (peg$c6) / Terminal_OR_Brackets
          (match parseAction cs with
           | some (a, cs1) =>
               (match lit "->" (parseWs cs1) with
                | some cs2 =>
                    (match parseRule fuel Rule.nameOrSequenceR (parseWs cs2) with
                     | some (b, cs3) => some (PNode.sequence a b, cs3)
                     | none => parseRule fuel Rule.terminalOrBracketsR cs)
                | none => parseRule fuel Rule.terminalOrBracketsR cs)
           | none => parseRule fuel Rule.terminalOrBracketsR cs)
      | Rule.nameOrChoiceR =>
          (match parseName cs with
           | some v => some v
           | none => parseRule fuel Rule.processChoiceR cs)
      | Rule.nameOrSequenceR =>
          (match parseRule fuel Rule.processSequenceR cs with
           | some v => some v
           | none => parseName cs)
      | Rule.terminalOrBracketsR =>
          (match parseTerminal cs with
           | some v => some v
           | none =>
             match lit "(" cs with
             | some cs1 =>
                 (match parseRule fuel Rule.processStandardR (parseWs cs1) with
                  | some (p, cs2) =>
                      (match lit ")" (parseWs cs2) with
                       | some cs3 => some (p, cs3)
                       | none => none)
                  | none => none)
             | none => none)
      | Rule.processHideR =>
          -- `"\" _ "{" _ Action_OR_Brace` (peg$c7)
          (match lit "\\" cs with
           | some cs1 =>
               (match lit "\x7b" (parseWs cs1) with
                | some cs2 => parseRule fuel Rule.actionOrBraceR (parseWs cs2)
                | none => none)
           | none => none)
      | Rule.actionOrBraceR =>
          -- `Action _ "}"` (peg$c8) / `Action _ "," _ Action_OR_Brace` (peg$c9)
          let alt1 :=
            match parseAction cs with
            | some (a, cs1) =>
                (match lit "\x7d" (parseWs cs1) with
                 | some cs2 =>
                     (match a with
                      | PNode.action s => some (PNode.hideOne s, cs2)
                      | _ => none)
                 | none => none)
            | none => none
          (match alt1 with
           | some v => some v
           | none =>
             match parseAction cs with
             | some (a, cs1) =>
                 (match lit "," (parseWs cs1) with
                  | some cs2 =>
                      (match parseRule fuel Rule.actionOrBraceR (parseWs cs2) with
                       | some (b, cs3) => some (PNode.hideMany [a, b], cs3)
                       | none => none)
                  | none => none)
             | none => none)

/-- Rule `File` (`peg$parseFile`): zero or more models; never fails. -/
def parseFileLoop : Nat → List Char → List PNode → List PNode × List Char
  | 0, cs, acc => (acc, cs)
  | fuel + 1, cs, acc =>
      match parseRule fuel Rule.modelR cs with
      | some (m, cs1) => parseFileLoop fuel cs1 (acc ++ [m])
      | none => (acc, cs)

/-- Entry point `peg$parse(input)`: parse a file and require the whole input
to be consumed; otherwise a `SyntaxError` is thrown (`none`).  The fuel
dominates the recursion depth of the generated parser on the input. -/
def pegParse (input : String) : Option (List PNode) :=
  let cs := input.toList
  let r := parseFileLoop (cs.length * 8 + 64) cs []
  if r.2.isEmpty then some r.1 else none

end Peg

namespace ExprI

/-!
Shallow embedding of the auxiliary expression evaluator
(`expression-interpreter.js`).  JavaScript numbers are modelled by exact
rationals extended with the special values `Infinity`, `-Infinity` and
`NaN`; the boolean results of comparison and logical operators are a fourth
case.  Throws (`throw error`) are the `.error` case of `Except`.
-/

/-- An expression tree: a base expression is a number literal or a variable
name (`expression.operator === undefined`), an operator node carries the
operator string and the two operand subtrees. -/
inductive Expr where
  | num (q : ℚ)
  | varName (s : String)
  | binop (op : String) (operand1 operand2 : Expr)
deriving DecidableEq, Repr

/-- A JavaScript value produced by the evaluator. -/
inductive JSVal where
  | n (q : ℚ)
  | inf
  | negInf
  | nan
  | b (v : Bool)
deriving DecidableEq, Repr

/-- Truncation toward zero, as JavaScript ToInt32 truncates. -/
def ratTrunc (q : ℚ) : Int :=
  if 0 ≤ q then ⌊q⌋ else -⌊-q⌋

/-- Wrap an integer into signed 32-bit range. -/
def wrap32 (i : Int) : Int :=
  (i + 2 ^ 31).emod (2 ^ 32) - 2 ^ 31

/-- Wrap an integer into unsigned 32-bit range. -/
def wrapU32 (i : Int) : Int :=
  i.emod (2 ^ 32)

/-- JavaScript ToNumber on the values the evaluator produces: booleans
become `1` / `0`. -/
def toNumber : JSVal → JSVal
  | JSVal.b true => JSVal.n 1
  | JSVal.b false => JSVal.n 0
  | v => v

/-- JavaScript ToInt32. -/
def toInt32 (v : JSVal) : Int :=
  match toNumber v with
  | JSVal.n q => wrap32 (ratTrunc q)
  | _ => 0

/-- The loose comparison `result != 0` of `processOperand(…, AS_BOOLEAN)`:
false exactly for the number `0` and the boolean `false`. -/
def jsNeqZero (v : JSVal) : Bool :=
  match v with
  | JSVal.n q => q != 0
  | JSVal.b bv => bv
  | _ => true

/-- JavaScript number addition. -/
def jsAdd (a b : JSVal) : JSVal :=
  match toNumber a, toNumber b with
  | JSVal.n q, JSVal.n r => JSVal.n (q + r)
  | JSVal.inf, JSVal.negInf => JSVal.nan
  | JSVal.negInf, JSVal.inf => JSVal.nan
  | JSVal.inf, JSVal.n _ => JSVal.inf
  | JSVal.n _, JSVal.inf => JSVal.inf
  | JSVal.inf, JSVal.inf => JSVal.inf
  | JSVal.negInf, JSVal.n _ => JSVal.negInf
  | JSVal.n _, JSVal.negInf => JSVal.negInf
  | JSVal.negInf, JSVal.negInf => JSVal.negInf
  | _, _ => JSVal.nan

/-- JavaScript number negation. -/
def jsNeg (a : JSVal) : JSVal :=
  match toNumber a with
  | JSVal.n q => JSVal.n (-q)
  | JSVal.inf => JSVal.negInf
  | JSVal.negInf => JSVal.inf
  | v => v

/-- JavaScript number subtraction. -/
def jsSub (a b : JSVal) : JSVal :=
  jsAdd a (jsNeg b)

/-- JavaScript number multiplication. -/
def jsMul (a b : JSVal) : JSVal :=
  match toNumber a, toNumber b with
  | JSVal.n q, JSVal.n r => JSVal.n (q * r)
  | JSVal.inf, JSVal.inf => JSVal.inf
  | JSVal.inf, JSVal.negInf => JSVal.negInf
  | JSVal.negInf, JSVal.inf => JSVal.negInf
  | JSVal.negInf, JSVal.negInf => JSVal.inf
  | JSVal.inf, JSVal.n r => if r > 0 then JSVal.inf else if r < 0 then JSVal.negInf else JSVal.nan
  | JSVal.n q, JSVal.inf => if q > 0 then JSVal.inf else if q < 0 then JSVal.negInf else JSVal.nan
  | JSVal.negInf, JSVal.n r =>
      if r > 0 then JSVal.negInf else if r < 0 then JSVal.inf else JSVal.nan
  | JSVal.n q, JSVal.negInf =>
      if q > 0 then JSVal.negInf else if q < 0 then JSVal.inf else JSVal.nan
  | _, _ => JSVal.nan

/-- JavaScript number division: in particular a nonzero number divided by
zero is a signed infinity and `0 / 0` is `NaN` - no error is raised. -/
def jsDiv (a b : JSVal) : JSVal :=
  match toNumber a, toNumber b with
  | JSVal.n q, JSVal.n r =>
      if r == 0 then
        if q > 0 then JSVal.inf else if q < 0 then JSVal.negInf else JSVal.nan
      else JSVal.n (q / r)
  | JSVal.inf, JSVal.n r => if r < 0 then JSVal.negInf else JSVal.inf
  | JSVal.negInf, JSVal.n r => if r < 0 then JSVal.inf else JSVal.negInf
  | JSVal.n _, JSVal.inf => JSVal.n 0
  | JSVal.n _, JSVal.negInf => JSVal.n 0
  | _, _ => JSVal.nan

/-- JavaScript number remainder: the sign follows the dividend and a zero
divisor gives `NaN` - no error is raised. -/
def jsMod (a b : JSVal) : JSVal :=
  match toNumber a, toNumber b with
  | JSVal.n q, JSVal.n r =>
      if r == 0 then JSVal.nan else JSVal.n (q - r * (ratTrunc (q / r) : ℚ))
  | JSVal.n q, JSVal.inf => JSVal.n q
  | JSVal.n q, JSVal.negInf => JSVal.n q
  | _, _ => JSVal.nan

/-- JavaScript `<` on numbers (false whenever `NaN` is involved). -/
def jsLt (a b : JSVal) : Bool :=
  match toNumber a, toNumber b with
  | JSVal.n q, JSVal.n r => q < r
  | JSVal.n _, JSVal.inf => true
  | JSVal.negInf, JSVal.n _ => true
  | JSVal.negInf, JSVal.inf => true
  | _, _ => false

/-- JavaScript `<=` on numbers. -/
def jsLe (a b : JSVal) : Bool :=
  match toNumber a, toNumber b with
  | JSVal.n q, JSVal.n r => q ≤ r
  | JSVal.n _, JSVal.inf => true
  | JSVal.negInf, JSVal.n _ => true
  | JSVal.negInf, JSVal.inf => true
  | JSVal.inf, JSVal.inf => true
  | JSVal.negInf, JSVal.negInf => true
  | _, _ => false

/-- JavaScript loose equality on the numbers and booleans the evaluator
produces (booleans coerce to numbers; `NaN` equals nothing). -/
def jsEq (a b : JSVal) : Bool :=
  match toNumber a, toNumber b with
  | JSVal.n q, JSVal.n r => q == r
  | JSVal.inf, JSVal.inf => true
  | JSVal.negInf, JSVal.negInf => true
  | _, _ => false

/-- JavaScript signed right shift `a >> b`. -/
def jsShr (a b : JSVal) : JSVal :=
  let cnt := ((wrapU32 (toInt32 b)).toNat) % 32
  JSVal.n ((Int.fdiv (toInt32 a) (2 ^ cnt) : Int) : ℚ)

/-- JavaScript left shift `a << b`. -/
def jsShl (a b : JSVal) : JSVal :=
  let cnt := ((wrapU32 (toInt32 b)).toNat) % 32
  JSVal.n ((wrap32 (toInt32 a * 2 ^ cnt) : Int) : ℚ)

/-- Unsigned 32-bit view of a value, for the bitwise operators. -/
def toU32Nat (v : JSVal) : Nat :=
  (wrapU32 (toInt32 v)).toNat

/-- JavaScript bitwise and. -/
def jsBitAnd (a b : JSVal) : JSVal :=
  JSVal.n ((wrap32 (Nat.land (toU32Nat a) (toU32Nat b) : Int) : Int) : ℚ)

/-- JavaScript bitwise or. -/
def jsBitOr (a b : JSVal) : JSVal :=
  JSVal.n ((wrap32 (Nat.lor (toU32Nat a) (toU32Nat b) : Int) : Int) : ℚ)

/-- JavaScript bitwise exclusive or. -/
def jsBitXor (a b : JSVal) : JSVal :=
  JSVal.n ((wrap32 (Nat.xor (toU32Nat a) (toU32Nat b) : Int) : Int) : ℚ)

/-- Function `processExpression(expression, variableMap)` (together with the
per-operator helpers it dispatches to).  A base expression is a number
literal or a variable lookup that throws on an unknown name
(`processBaseExpression`); an operator node processes both operands - as
booleans for `||` and `&&`, as raw values otherwise - and applies the
JavaScript operator.  Division and modulo apply `/` and `%` directly, with
no zero test (`processDivideExpression` / `processModuloExpression`). -/
def processExpression : Expr → List (String × ℚ) → Except String JSVal
  | Expr.num q, _ => Except.ok (JSVal.n q)
  | Expr.varName s, vm =>
      (match vm.find? (fun p => p.1 == s) with
       | some p => Except.ok (JSVal.n p.2)
       | none =>
           Except.error ("\x27" ++ s ++ "\x27 is not a valid variable name."))
  | Expr.binop op o1 o2, vm =>
      if !(["||", "&&", "|", "^", "&", "==", "!=", "<", "<=", ">", ">=",
            ">>", "<<", "+", "-", "*", "/", "%"].contains op) then
        Except.error ("Attempting to process invalid operator \x27" ++ op ++ "\x27")
      else do
      let r1 ← processExpression o1 vm
      let r2 ← processExpression o2 vm
      if op == "||" then pure (JSVal.b (jsNeqZero r1 || jsNeqZero r2))
      else if op == "&&" then pure (JSVal.b (jsNeqZero r1 && jsNeqZero r2))
      else if op == "|" then pure (jsBitOr r1 r2)
      else if op == "^" then pure (jsBitXor r1 r2)
      else if op == "&" then pure (jsBitAnd r1 r2)
      else if op == "==" then pure (JSVal.b (jsEq r1 r2))
      else if op == "!=" then pure (JSVal.b (!(jsEq r1 r2)))
      else if op == "<" then pure (JSVal.b (jsLt r1 r2))
      else if op == "<=" then pure (JSVal.b (jsLe r1 r2))
      else if op == ">" then pure (JSVal.b (jsLt r2 r1))
      else if op == ">=" then pure (JSVal.b (jsLe r2 r1))
      else if op == ">>" then pure (jsShr r1 r2)
      else if op == "<<" then pure (jsShl r1 r2)
      else if op == "+" then pure (jsAdd r1 r2)
      else if op == "-" then pure (jsSub r1 r2)
      else if op == "*" then pure (jsMul r1 r2)
      else if op == "/" then pure (jsDiv r1 r2)
      else pure (jsMod r1 r2)

/-- Entry point `interpretExpression(expTree, variableMap)`. -/
def interpretExpression (expTree : Expr) (variableMap : List (String × ℚ)) :
    Except String JSVal :=
  processExpression expTree variableMap

end ExprI

/-!
Concrete instances used by counterexamples and witnesses.
-/

/-- A first operand LTS for parallel composition: root 0 (empty label) with
`m` to node 1 (labelled `a`) and `n` to node 2 (labelled `a.b`). -/
def parG1 : MC.Graph := MC.Graph.mk
  [MC.Node.mk 0 "" [], MC.Node.mk 1 "a" [], MC.Node.mk 2 "a.b" []]
  [MC.Edge.mk 0 0 1 "m" false false, MC.Edge.mk 1 0 2 "n" false false]
  (some 0)

/-- A second operand LTS: root 3 with `m` to node 4 (labelled `b.c`) and `n`
to node 5 (labelled `c`), which carries a `q` self-loop.  The product labels
of the pairs (1,4) and (2,5) are both `a.b.c`. -/
def parG2 : MC.Graph := MC.Graph.mk
  [MC.Node.mk 3 "" [], MC.Node.mk 4 "b.c" [], MC.Node.mk 5 "c" []]
  [MC.Edge.mk 2 3 4 "m" false false, MC.Edge.mk 3 3 5 "n" false false,
   MC.Edge.mk 4 5 5 "q" false false]
  (some 3)

/-- The uid state after the two operand graphs were built. -/
def parUids : MC.Uids := MC.Uids.mk 6 5

/-- The composition of `parG1` with `parG2` and the uid state it leaves. -/
def parP1 : MC.Graph × MC.Uids := MC.Ops.parallelComposition parG1 parG2 parUids

/-- The composition in the opposite order, continuing the uid state. -/
def parP2 : MC.Graph × MC.Uids := MC.Ops.parallelComposition parG2 parG1 parP1.2

/-- Counterexample LTS for the start-node claim: root 0 whose only incoming
edge comes from node 1, which is unreachable from the root. -/
def cexG10 : MC.Graph := MC.Graph.mk
  [MC.Node.mk 0 "" [], MC.Node.mk 1 "" []]
  [MC.Edge.mk 0 1 0 "a" false false]
  (some 0)

/-- Witness LTS for the simplification claim: a root with two `a` branches
to equivalent stop states. -/
def wG1 : MC.Graph := MC.Graph.mk
  [MC.Node.mk 0 "" [], MC.Node.mk 1 "" [], MC.Node.mk 2 "" []]
  [MC.Edge.mk 0 0 1 "a" false false, MC.Edge.mk 1 0 2 "a" false false]
  (some 0)

/-- Witness LTS for fair abstraction: a hidden step into an `a` step. -/
def wG2 : MC.Graph := MC.Graph.mk
  [MC.Node.mk 0 "" [], MC.Node.mk 1 "" [], MC.Node.mk 2 "" []]
  [MC.Edge.mk 0 0 1 "" true false, MC.Edge.mk 1 1 2 "a" false false]
  (some 0)

/-- Witness LTS for unfair abstraction: an `a` step into a hidden
self-loop. -/
def wG3 : MC.Graph := MC.Graph.mk
  [MC.Node.mk 0 "" [], MC.Node.mk 1 "" []]
  [MC.Edge.mk 0 0 1 "a" false false, MC.Edge.mk 1 1 1 "" true false]
  (some 0)

/-- The hidden self-loop of `wG3`. -/
def wG3loop : MC.Edge := MC.Edge.mk 1 1 1 "" true false

/-- Witness graph for the uid-collision claim: one node and one edge, both
with id 0. -/
def wES6 : ES6.Graph := ES6.Graph.mk
  [MC.Node.mk 0 "" []]
  [ES6.Edge.mk 0 0 0 "a" false false]
  ["a"]
  (some 0)

/-!
Theorems.
-/

/-- Claim C6: the spec requires division and modulo by zero to fail with a
descriptive error, but `processDivideExpression` and
`processModuloExpression` apply `/` and `%` with no zero test: `1 / 0`
evaluates to `Infinity` and `1 % 0` to `NaN`, and no error is thrown. -/
theorem C6_division_modulo_by_zero_returns_value :
    ExprI.interpretExpression
      (ExprI.Expr.binop "/" (ExprI.Expr.num 1) (ExprI.Expr.num 0)) [] =
      Except.ok ExprI.JSVal.inf ∧
    ExprI.interpretExpression
      (ExprI.Expr.binop "%" (ExprI.Expr.num 1) (ExprI.Expr.num 0)) [] =
      Except.ok ExprI.JSVal.nan :=
  ⟨rfl, rfl⟩

/-- Claim C7: the spec reserves `STOP` and `ERROR` as non-names, but
`peg$parseName` accepts any `[A-Z][A-Za-z0-9_]*` with no reserved-word
exclusion, so the sources `STOP = a -> STOP.` and `ERROR = a -> STOP.` parse
successfully into definitions named `STOP` and `ERROR`. -/
theorem C7_reserved_words_accepted_as_names :
    Peg.pegParse "STOP = a -> STOP." =
      some [Peg.PNode.model
        [Peg.PNode.definition (Peg.PNode.name "STOP")
          (Peg.PNode.sequence (Peg.PNode.action "a") Peg.PNode.stop)] none] ∧
    Peg.pegParse "ERROR = a -> STOP." =
      some [Peg.PNode.model
        [Peg.PNode.definition (Peg.PNode.name "ERROR")
          (Peg.PNode.sequence (Peg.PNode.action "a") Peg.PNode.stop)] none] :=
  ⟨rfl, rfl⟩

/-- Claim C8 counterexample: the claim says the parser accepts an action
preceded by `!` or `?`, but `peg$parseAction` requires a lowercase first
character, so `P = !a -> STOP.` is rejected with a syntax error. -/
theorem C8_counterexample_prefix_rejected :
    Peg.pegParse "P = !a -> STOP." = none ∧ Peg.pegParse "P = ?a -> STOP." = none :=
  ⟨rfl, rfl⟩

/-- Claim C9: `addNode` throws a `Graph.Exception` when the uid is already
mapped to a node and `addEdge` throws when the uid is already mapped to an
edge; the throw happens before any mutation, so the returned graph state is
exactly the input graph. -/
theorem C9_duplicate_uid_throws_graph_unchanged :
    (∀ (g : ES6.Graph) (uid : Nat) (label : String) (meta : MC.Meta) (n : MC.Node),
      g.getNode uid = some n →
      g.addNode uid label meta =
        (g, Except.error ("This graph already contains a node with the id \"" ++
          toString uid ++ "\"."))) ∧
    (∀ (g : ES6.Graph) (uid fromId toId : Nat) (label : String) (e : ES6.Edge),
      g.getEdge uid = some e →
      g.addEdge uid fromId toId label =
        (g, Except.error ("This graph already contains a edge with id \"" ++
          toString uid ++ "\"."))) := by
  constructor
  · intro g uid label meta n h
    simp [ES6.Graph.addNode, h]
  · intro g uid fromId toId label e h
    simp [ES6.Graph.addEdge, h]

/-- Witness for C9 at a concrete graph holding node 0 and edge 0. -/
theorem C9_witness :
    wES6.getNode 0 = some (MC.Node.mk 0 "" []) ∧
    wES6.getEdge 0 = some (ES6.Edge.mk 0 0 0 "a" false false) ∧
    wES6.addNode 0 "x" [] =
      (wES6, Except.error "This graph already contains a node with the id \"0\".") ∧
    wES6.addEdge 0 0 0 "b" =
      (wES6, Except.error "This graph already contains a edge with id \"0\".") :=
  ⟨rfl, rfl,
    C9_duplicate_uid_throws_graph_unchanged.1 wES6 0 "x" [] (MC.Node.mk 0 "" []) rfl,
    C9_duplicate_uid_throws_graph_unchanged.2 wES6 0 0 0 "b"
      (ES6.Edge.mk 0 0 0 "a" false false) rfl⟩

/-- Claim C4: the spec requires `parallelComposition(G1, G2)` and
`parallelComposition(G2, G1)` to be strongly bisimilar with `isEquivalent`
returning true, but `_getId` resolves product states by their combined label
string: in `parG1` / `parG2` the distinct product states (1,4) and (2,5) are
both labelled `a.b.c`, so the first composition conflates them while the
swapped composition keeps them apart, and `isEquivalent` returns false. -/
theorem C4_parallel_commutativity_fails :
    MC.Ops.isEquivalent [parP1.1, parP2.1] = some false := by decide

/-- Claim C10 counterexample: after `abstraction(cexG10, true)` the root has
lost its only (unreachable) predecessor to the trailing trim, so it has no
incoming edges yet carries no `startNode` metadata, contradicting the
fair-abstraction half of the claim. -/
theorem C10_counterexample_root_untagged :
    ((MC.Ops.abstraction cexG10 true (MC.Uids.mk 2 1)).1.nodes.any (fun n =>
       ((MC.Ops.abstraction cexG10 true (MC.Uids.mk 2 1)).1.edgesToMe n.id).isEmpty &&
       (MC.metaLookup n.meta "startNode" == none))) = true := by decide

/-- Claim C8 amended: the parser does not recognise the `!` / `?` prefixes -
`peg$parseAction` fails whenever the next character is `!` or `?` - and it
is the edge label setter of the newer graph implementation that strips a
leading `!` (setting the broadcasting flag) and then a leading `?` (setting
the listening flag), storing the bare label on the edge. -/
theorem C8_prefix_handling_in_label_setter :
    (∀ (c : Char) (cs : List Char), c = '!' ∨ c = '?' →
      Peg.parseAction (c :: cs) = none) ∧
    (∀ (uid f t : Nat) (l : List Char), l.head? ≠ some '?' →
      ES6.mkEdge uid f t (String.mk ('!' :: l)) =
        ES6.Edge.mk uid f t (String.mk l) true false) ∧
    (∀ (uid f t : Nat) (l : List Char),
      ES6.mkEdge uid f t (String.mk ('?' :: l)) =
        ES6.Edge.mk uid f t (String.mk l) false true) ∧
    (∀ (uid f t : Nat) (l : List Char), l.head? ≠ some '!' → l.head? ≠ some '?' →
      ES6.mkEdge uid f t (String.mk l) = ES6.Edge.mk uid f t (String.mk l) false false) := by
  refine ⟨?_, ?_, ?_, ?_⟩
  · intro c cs h
    rcases h with rfl | rfl <;> rfl
  · intro uid f t l h
    cases l with
    | nil => rfl
    | cons c l2 =>
        have hc : (c == '?') = false := by
          simp only [List.head?] at h
          simpa using fun hcc => h (by rw [hcc])
        simp [ES6.mkEdge, ES6.stripLabel, hc]
  · intro uid f t l
    cases l with
    | nil => rfl
    | cons c l2 => simp [ES6.mkEdge, ES6.stripLabel]
  · intro uid f t l h1 h2
    cases l with
    | nil => rfl
    | cons c l2 =>
        have hc1 : (c == '!') = false := by
          simp only [List.head?] at h1
          simpa using fun hcc => h1 (by rw [hcc])
        have hc2 : (c == '?') = false := by
          simp only [List.head?] at h2
          simpa using fun hcc => h2 (by rw [hcc])
        simp [ES6.mkEdge, ES6.stripLabel, hc1, hc2]

/-- Witness for the amended C8 at concrete inputs: `!a` is rejected by the
action rule, and building edges with labels `!a`, `?a` and `a` stores the
bare label `a` with the corresponding flags. -/
theorem C8_witness :
    (('!' : Char) = '!' ∨ ('!' : Char) = '?') ∧
    Peg.parseAction ['!', 'a'] = none ∧
    (['a'].head? ≠ some '?') ∧
    ES6.mkEdge 7 0 1 (String.mk ['!', 'a']) = ES6.Edge.mk 7 0 1 (String.mk ['a']) true false ∧
    ES6.mkEdge 8 0 1 (String.mk ['?', 'a']) = ES6.Edge.mk 8 0 1 (String.mk ['a']) false true ∧
    ES6.mkEdge 9 0 1 (String.mk ['a']) = ES6.Edge.mk 9 0 1 (String.mk ['a']) false false :=
  ⟨Or.inl rfl,
   C8_prefix_handling_in_label_setter.1 '!' ['a'] (Or.inl rfl),
   by decide,
   C8_prefix_handling_in_label_setter.2.1 7 0 1 ['a'] (by decide),
   C8_prefix_handling_in_label_setter.2.2.1 8 0 1 ['a'],
   C8_prefix_handling_in_label_setter.2.2.2 9 0 1 ['a'] (by decide) (by decide)⟩

/-- After `removeHiddenEdges` every remaining edge has `isHidden` false. -/
theorem removeHiddenEdges_no_hidden (g : MC.Graph) :
    ∀ e ∈ (g.removeHiddenEdges).edges, e.isHidden = false := by
  intro e he
  have h2 : e ∈ g.edges.filter (fun e => !e.isHidden) := he
  simp only [List.mem_filter, Bool.not_eq_true'] at h2
  exact h2.2

/-- Tagging a stop node changes no edges. -/
theorem stopTag_edges (g : MC.Graph) (id : Nat) :
    (MC.Ops.stopTag g id).edges = g.edges := by
  unfold MC.Ops.stopTag
  repeat' split
  all_goals rfl

/-- The stop-node search changes no edges. -/
theorem stopStep_edges :
    ∀ (fuel : Nat) (g : MC.Graph) (stack visited : List Nat),
      (MC.Ops.constructStopNodesStep fuel g stack visited).edges = g.edges := by
  intro fuel
  induction fuel with
  | zero => intro g stack visited; rfl
  | succ n ih =>
      intro g stack visited
      cases stack with
      | nil => rfl
      | cons id rest =>
          simp only [MC.Ops.constructStopNodesStep]
          rw [ih]
          split
          · exact stopTag_edges g id
          · rfl

/-- Method `_constructStopNodes` changes no edges. -/
theorem constructStopNodes_edges (g : MC.Graph) :
    (MC.Ops.constructStopNodes g).edges = g.edges := by
  unfold MC.Ops.constructStopNodes MC.Graph.deepClone
  cases hr : g.root with
  | none => simp [hr]
  | some rn => simp [hr, stopStep_edges]

/-- Removing a node only removes edges. -/
theorem removeNode_edges_sub (g : MC.Graph) (i : Nat) :
    ∀ e ∈ (g.removeNode i).edges, e ∈ g.edges := by
  intro e he
  unfold MC.Graph.removeNode at he
  split at he
  · exact he
  · exact (List.mem_filter.mp he).1

/-- The removal loop of `trim` only removes edges. -/
theorem trimFold_edges_sub (reach : List Nat) :
    ∀ (l : List Nat) (g : MC.Graph),
      ∀ e ∈ (l.foldl (fun acc i => if reach.contains i then acc else acc.removeNode i) g).edges,
        e ∈ g.edges := by
  intro l
  induction l with
  | nil => intro g e he; exact he
  | cons i t ih =>
      intro g e he
      have h2 : e ∈ (if reach.contains i then g else g.removeNode i).edges := ih _ e he
      by_cases hc : reach.contains i = true
      · rwa [if_pos hc] at h2
      · rw [if_neg hc] at h2
        exact removeNode_edges_sub g i e h2

/-- Method `trim` only removes edges. -/
theorem trim_edges_sub (g : MC.Graph) : ∀ e ∈ (g.trim).edges, e ∈ g.edges := by
  intro e he
  exact trimFold_edges_sub _ _ _ e he

/-- Unfolding of the fair branch of `abstraction`. -/
theorem abstraction_fair_unfold (g : MC.Graph) (u : MC.Uids) :
    MC.Ops.abstraction g true u =
      ((MC.Ops.constructStopNodes
        ((MC.Ops.abstractionAdd (MC.Ops.abstractionGather g u).1 g).removeHiddenEdges)).trim,
       (MC.Ops.abstractionGather g u).2) := rfl

/-- Claim C2: fair abstraction (`abstraction(G, isFair=true)`) returns a
graph with no hidden edge: every hidden edge is deleted by
`removeHiddenEdges` and the later stop-node pass and trim never add an
edge. -/
theorem C2_fair_abstraction_no_hidden_edges (g : MC.Graph) (u : MC.Uids) (r : Nat)
    (n : MC.Node) (_hroot : g.rootId = some r) (_hnode : g.getNode r = some n) :
    ((MC.Ops.abstraction g true u).1.edges.all (fun e => !e.isHidden)) = true := by
  rw [abstraction_fair_unfold]
  rw [List.all_eq_true]
  intro e he
  have h1 := trim_edges_sub _ e he
  rw [constructStopNodes_edges] at h1
  have h2 := removeHiddenEdges_no_hidden _ e h1
  simp [h2]

/-- Witness for C2 at a concrete LTS with one hidden edge. -/
theorem C2_witness :
    wG2.rootId = some 0 ∧ wG2.getNode 0 = some (MC.Node.mk 0 "" []) ∧
    ((MC.Ops.abstraction wG2 true (MC.Uids.mk 3 2)).1.edges.all (fun e => !e.isHidden)) = true :=
  ⟨rfl, rfl,
    C2_fair_abstraction_no_hidden_edges wG2 (MC.Uids.mk 3 2) 0 (MC.Node.mk 0 "" []) rfl rfl⟩

/-- Membership in a sorted node insertion. -/
theorem mem_insertNodeSorted {n x : MC.Node} :
    ∀ {l : List MC.Node}, n ∈ MC.insertNodeSorted x l → n = x ∨ n ∈ l := by
  intro l
  induction l with
  | nil => intro h; simpa [MC.insertNodeSorted] using h
  | cons m t ih =>
      intro h
      unfold MC.insertNodeSorted at h
      split at h
      · simpa using h
      · rcases List.mem_cons.mp h with h1 | h1
        · exact Or.inr (by simp [h1])
        · rcases ih h1 with h2 | h2
          · exact Or.inl h2
          · exact Or.inr (List.mem_cons_of_mem _ h2)

/-- A sorted node insertion contains the inserted node. -/
theorem self_mem_insertNodeSorted (x : MC.Node) :
    ∀ (l : List MC.Node), x ∈ MC.insertNodeSorted x l := by
  intro l
  induction l with
  | nil => simp [MC.insertNodeSorted]
  | cons m t ih =>
      unfold MC.insertNodeSorted
      split
      · simp
      · exact List.mem_cons_of_mem _ ih

/-- A sorted node insertion keeps the existing nodes. -/
theorem mem_insertNodeSorted_of_mem {n : MC.Node} (x : MC.Node) :
    ∀ {l : List MC.Node}, n ∈ l → n ∈ MC.insertNodeSorted x l := by
  intro l
  induction l with
  | nil => intro h; cases h
  | cons m t ih =>
      intro h
      unfold MC.insertNodeSorted
      split
      · exact List.mem_cons_of_mem _ h
      · rcases List.mem_cons.mp h with h1 | h1
        · simp [h1]
        · exact List.mem_cons_of_mem _ (ih h1)

/-- Membership in a sorted edge insertion. -/
theorem mem_insertEdgeSorted {f x : MC.Edge} :
    ∀ {l : List MC.Edge}, f ∈ MC.insertEdgeSorted x l → f = x ∨ f ∈ l := by
  intro l
  induction l with
  | nil => intro h; simpa [MC.insertEdgeSorted] using h
  | cons m t ih =>
      intro h
      unfold MC.insertEdgeSorted at h
      split at h
      · simpa using h
      · rcases List.mem_cons.mp h with h1 | h1
        · exact Or.inr (by simp [h1])
        · rcases ih h1 with h2 | h2
          · exact Or.inl h2
          · exact Or.inr (List.mem_cons_of_mem _ h2)

/-- A sorted edge insertion contains the inserted edge. -/
theorem self_mem_insertEdgeSorted (x : MC.Edge) :
    ∀ (l : List MC.Edge), x ∈ MC.insertEdgeSorted x l := by
  intro l
  induction l with
  | nil => simp [MC.insertEdgeSorted]
  | cons m t ih =>
      unfold MC.insertEdgeSorted
      split
      · simp
      · exact List.mem_cons_of_mem _ ih

/-- A sorted edge insertion keeps the existing edges. -/
theorem mem_insertEdgeSorted_of_mem {f : MC.Edge} (x : MC.Edge) :
    ∀ {l : List MC.Edge}, f ∈ l → f ∈ MC.insertEdgeSorted x l := by
  intro l
  induction l with
  | nil => intro h; cases h
  | cons m t ih =>
      intro h
      unfold MC.insertEdgeSorted
      split
      · exact List.mem_cons_of_mem _ h
      · rcases List.mem_cons.mp h with h1 | h1
        · simp [h1]
        · exact List.mem_cons_of_mem _ (ih h1)

/-- Defaulting the root changes no nodes. -/
theorem withRootDefault_nodes (g : MC.Graph) (uid : Nat) :
    (g.withRootDefault uid).nodes = g.nodes := by
  unfold MC.Graph.withRootDefault
  split
  all_goals rfl

/-- Defaulting the root changes no edges. -/
theorem withRootDefault_edges (g : MC.Graph) (uid : Nat) :
    (g.withRootDefault uid).edges = g.edges := by
  unfold MC.Graph.withRootDefault
  split
  all_goals rfl

/-- Adding a node changes no edges. -/
theorem addNodeD_edges (g : MC.Graph) (uid : Nat) (label : String) (m : MC.Meta) :
    (g.addNodeD uid label m).edges = g.edges := by
  unfold MC.Graph.addNodeD MC.Graph.addNode
  cases hg : g.getNode uid with
  | some n => rfl
  | none => exact withRootDefault_edges _ uid

/-- Adding an edge changes no nodes. -/
theorem addEdgeD_nodes (g : MC.Graph) (uid a b : Nat) (label : String) (h d : Bool) :
    (g.addEdgeD uid a b label h d).nodes = g.nodes := by
  unfold MC.Graph.addEdgeD MC.Graph.addEdge
  repeat' split
  all_goals rfl

/-- Adding an edge preserves the root id. -/
theorem addEdgeD_rootId (g : MC.Graph) (uid a b : Nat) (label : String) (h d : Bool) :
    (g.addEdgeD uid a b label h d).rootId = g.rootId := by
  unfold MC.Graph.addEdgeD MC.Graph.addEdge
  repeat' split
  all_goals rfl

/-- The nodes after adding a node: the fresh node or an existing one. -/
theorem addNodeD_nodes_sub {n : MC.Node} (g : MC.Graph) (uid : Nat) (label : String)
    (m : MC.Meta) (h : n ∈ (g.addNodeD uid label m).nodes) :
    n = MC.Node.mk uid label m ∨ n ∈ g.nodes := by
  unfold MC.Graph.addNodeD MC.Graph.addNode at h
  split at h
  · exact Or.inr h
  · rw [withRootDefault_nodes] at h
    exact mem_insertNodeSorted h

/-- The edges after adding an edge: the fresh edge or an existing one. -/
theorem addEdgeD_edges_sub {f : MC.Edge} (g : MC.Graph) (uid a b : Nat) (label : String)
    (hi di : Bool) (h : f ∈ (g.addEdgeD uid a b label hi di).edges) :
    f = MC.Edge.mk uid a b label hi di ∨ f ∈ g.edges := by
  unfold MC.Graph.addEdgeD MC.Graph.addEdge at h
  split at h
  · exact Or.inr h
  · exact mem_insertEdgeSorted h

/-- With a fresh uid, adding a node really inserts it. -/
theorem addNodeD_nodes_of_fresh (g : MC.Graph) (uid : Nat) (label : String) (m : MC.Meta)
    (h : g.getNode uid = none) :
    (g.addNodeD uid label m).nodes = MC.insertNodeSorted (MC.Node.mk uid label m) g.nodes := by
  unfold MC.Graph.addNodeD MC.Graph.addNode
  rw [h]
  exact withRootDefault_nodes _ uid

/-- With a fresh uid, adding an edge really inserts it. -/
theorem addEdgeD_edges_of_fresh (g : MC.Graph) (uid a b : Nat) (label : String)
    (hi di : Bool) (h : g.getEdge uid = none) :
    (g.addEdgeD uid a b label hi di).edges =
      MC.insertEdgeSorted (MC.Edge.mk uid a b label hi di) g.edges := by
  unfold MC.Graph.addEdgeD MC.Graph.addEdge
  rw [h]

/-- Tagging metadata changes no edges. -/
theorem addMetaDataTo_edges (g : MC.Graph) (i : Nat) (k : String) (v : MC.MVal) :
    (g.addMetaDataTo i k v).edges = g.edges := rfl

/-- Removing an edge filters the edge list by id. -/
theorem removeEdge_edges (g : MC.Graph) (i : Nat) :
    (g.removeEdge i).edges = g.edges.filter (fun e => e.id != i) := rfl

/-- A hidden self-loop surviving one deadlock-construction step was already
present and is not the processed edge. -/
theorem cdStep_hidden_loop_sub {f : MC.Edge} (p : MC.Graph × MC.Uids) (e : MC.Edge)
    (hf : f ∈ (MC.Ops.cdStep p e).1.edges) (hh : f.isHidden = true)
    (hl : f.fromId = f.toId) : f ∈ p.1.edges ∧ f ≠ e := by
  unfold MC.Ops.cdStep at hf
  split at hf
  · rw [addMetaDataTo_edges, removeEdge_edges] at hf
    rcases List.mem_filter.mp hf with ⟨hf1, hfid⟩
    rcases addEdgeD_edges_sub _ _ _ _ _ _ _ hf1 with h1 | h1
    · rw [h1] at hh
      cases hh
    · rw [addNodeD_edges] at h1
      refine ⟨h1, ?_⟩
      intro hfe
      rw [hfe] at hfid
      simp at hfid
  · next hcond =>
      refine ⟨hf, ?_⟩
      intro hfe
      rw [hfe] at hh hl
      simp [hh, hl] at hcond

/-- The deadlock-construction fold leaves no hidden self-loop, given that
every hidden self-loop of the running graph is still in the unprocessed
suffix. -/
theorem cdFold_no_hidden_loop :
    ∀ (es : List MC.Edge) (p : MC.Graph × MC.Uids),
      (∀ f ∈ p.1.edges, f.isHidden = true → f.fromId = f.toId → f ∈ es) →
      ∀ f ∈ (es.foldl MC.Ops.cdStep p).1.edges,
        f.isHidden = true → f.fromId = f.toId → False := by
  intro es
  induction es with
  | nil =>
      intro p hinv f hf hh hl
      exact absurd (hinv f hf hh hl) (List.not_mem_nil f)
  | cons e t ih =>
      intro p hinv f hf hh hl
      refine ih (MC.Ops.cdStep p e) ?_ f hf hh hl
      intro f2 hf2 hh2 hl2
      rcases cdStep_hidden_loop_sub p e hf2 hh2 hl2 with ⟨hmem, hne⟩
      rcases List.mem_cons.mp (hinv f2 hmem hh2 hl2) with h1 | h1
      · exact absurd h1 hne
      · exact h1

/-- Method `_constructDeadlocks` leaves no hidden self-loop. -/
theorem constructDeadlocks_no_hidden_loop (g : MC.Graph) (u : MC.Uids) :
    ∀ f ∈ (MC.Ops.constructDeadlocks g u).1.edges,
      f.isHidden = true → f.fromId = f.toId → False := by
  intro f hf hh hl
  exact cdFold_no_hidden_loop g.edges (g, u) (fun f2 hf2 _ _ => hf2) f hf hh hl

/-- Unfolding of the unfair branch of `abstraction`. -/
theorem abstraction_unfair_unfold (g : MC.Graph) (u : MC.Uids) :
    MC.Ops.abstraction g false u =
      ((MC.Ops.constructStopNodes
        (MC.Ops.constructDeadlocks
          (MC.Ops.removeEnumerated g.hiddenEdges
            (MC.Ops.abstractionAdd (MC.Ops.abstractionGather g u).1 g))
          (MC.Ops.abstractionGather g u).2).1).trim,
       (MC.Ops.constructDeadlocks
          (MC.Ops.removeEnumerated g.hiddenEdges
            (MC.Ops.abstractionAdd (MC.Ops.abstractionGather g u).1 g))
          (MC.Ops.abstractionGather g u).2).2) := rfl

/-- Removing an edge changes no nodes. -/
theorem removeEdge_nodes (g : MC.Graph) (i : Nat) :
    (g.removeEdge i).nodes = g.nodes := rfl

/-- A graph whose node ids are all below `k` has no node `k`. -/
theorem getNode_none_of_lt (g : MC.Graph) (k : Nat)
    (h : ∀ n ∈ g.nodes, n.id < k) : g.getNode k = none := by
  unfold MC.Graph.getNode
  rw [List.find?_eq_none]
  intro n hn
  have h2 := h n hn
  simp only [beq_iff_eq]
  omega

/-- A graph whose edge ids are all below `k` has no edge `k`. -/
theorem getEdge_none_of_lt (g : MC.Graph) (k : Nat)
    (h : ∀ f ∈ g.edges, f.id < k) : g.getEdge k = none := by
  unfold MC.Graph.getEdge
  rw [List.find?_eq_none]
  intro f hf
  have h2 := h f hf
  simp only [beq_iff_eq]
  omega

/-- Adding a node keeps the existing nodes. -/
theorem addNodeD_mem_nodes_of_mem {n : MC.Node} (g : MC.Graph) (uid : Nat)
    (label : String) (m : MC.Meta) (h : n ∈ g.nodes) :
    n ∈ (g.addNodeD uid label m).nodes := by
  unfold MC.Graph.addNodeD MC.Graph.addNode
  cases hg : g.getNode uid with
  | some x => exact h
  | none =>
      rw [withRootDefault_nodes]
      exact mem_insertNodeSorted_of_mem _ h

/-- Adding an edge keeps the existing edges. -/
theorem addEdgeD_mem_edges_of_mem {f : MC.Edge} (g : MC.Graph) (uid a b : Nat)
    (label : String) (hi di : Bool) (h : f ∈ g.edges) :
    f ∈ (g.addEdgeD uid a b label hi di).edges := by
  unfold MC.Graph.addEdgeD MC.Graph.addEdge
  cases hg : g.getEdge uid with
  | some x => exact h
  | none => exact mem_insertEdgeSorted_of_mem _ h

/-- Tagging metadata keeps every node whose id differs. -/
theorem addMetaDataTo_mem_of_ne {n : MC.Node} (g : MC.Graph) (i : Nat) (k : String)
    (v : MC.MVal) (h : n ∈ g.nodes) (hne : n.id ≠ i) :
    n ∈ (g.addMetaDataTo i k v).nodes := by
  unfold MC.Graph.addMetaDataTo
  refine List.mem_map.mpr ⟨n, h, ?_⟩
  rw [if_neg (by simpa using hne)]

/-- Every node after tagging metadata has the id of an original node. -/
theorem addMetaDataTo_nodes_ids {n : MC.Node} (g : MC.Graph) (i : Nat) (k : String)
    (v : MC.MVal) (h : n ∈ (g.addMetaDataTo i k v).nodes) :
    ∃ m ∈ g.nodes, n.id = m.id := by
  unfold MC.Graph.addMetaDataTo at h
  rcases List.mem_map.mp h with ⟨m, hm, hmap⟩
  refine ⟨m, hm, ?_⟩
  by_cases hc : (m.id == i) = true
  · rw [if_pos hc] at hmap
    rw [← hmap]
  · rw [if_neg hc] at hmap
    rw [← hmap]

/-- One deadlock-construction step does not decrease the counters. -/
theorem cdStep_uids_mono (p : MC.Graph × MC.Uids) (e : MC.Edge) :
    p.2.nodeUid ≤ (MC.Ops.cdStep p e).2.nodeUid ∧
      p.2.edgeUid ≤ (MC.Ops.cdStep p e).2.edgeUid := by
  unfold MC.Ops.cdStep
  split
  · exact ⟨Nat.le_succ _, Nat.le_succ _⟩
  · exact ⟨Nat.le_refl _, Nat.le_refl _⟩

/-- One deadlock-construction step keeps all node ids below the counter. -/
theorem cdStep_nodes_lt (p : MC.Graph × MC.Uids) (e : MC.Edge)
    (h : ∀ n ∈ p.1.nodes, n.id < p.2.nodeUid) :
    ∀ n ∈ (MC.Ops.cdStep p e).1.nodes, n.id < (MC.Ops.cdStep p e).2.nodeUid := by
  unfold MC.Ops.cdStep
  split
  · intro n hn
    simp only []
    rcases addMetaDataTo_nodes_ids _ _ _ _ hn with ⟨m, hm, hid⟩
    rw [removeEdge_nodes, addEdgeD_nodes] at hm
    rcases addNodeD_nodes_sub _ _ _ _ hm with h1 | h1
    · rw [hid, h1]
      exact Nat.lt_succ_self _
    · have h2 := h m h1
      rw [hid]
      omega
  · exact h

/-- One deadlock-construction step keeps all edge ids below the counter. -/
theorem cdStep_edges_lt (p : MC.Graph × MC.Uids) (e : MC.Edge)
    (h : ∀ f ∈ p.1.edges, f.id < p.2.edgeUid) :
    ∀ f ∈ (MC.Ops.cdStep p e).1.edges, f.id < (MC.Ops.cdStep p e).2.edgeUid := by
  unfold MC.Ops.cdStep
  split
  · intro f hf
    simp only []
    rw [addMetaDataTo_edges, removeEdge_edges] at hf
    rcases List.mem_filter.mp hf with ⟨hf1, _⟩
    rcases addEdgeD_edges_sub _ _ _ _ _ _ _ hf1 with h1 | h1
    · rw [h1]
      exact Nat.lt_succ_self _
    · rw [addNodeD_edges] at h1
      have h2 := h f h1
      omega
  · exact h

/-- The deadlock-construction fold does not decrease the counters. -/
theorem cdFold_uids_mono :
    ∀ (es : List MC.Edge) (p : MC.Graph × MC.Uids),
      p.2.nodeUid ≤ (es.foldl MC.Ops.cdStep p).2.nodeUid ∧
        p.2.edgeUid ≤ (es.foldl MC.Ops.cdStep p).2.edgeUid := by
  intro es
  induction es with
  | nil => intro p; exact ⟨Nat.le_refl _, Nat.le_refl _⟩
  | cons e t ih =>
      intro p
      have h1 := cdStep_uids_mono p e
      have h2 := ih (MC.Ops.cdStep p e)
      exact ⟨Nat.le_trans h1.1 h2.1, Nat.le_trans h1.2 h2.2⟩

/-- The deadlock-construction fold keeps all node ids below the counter. -/
theorem cdFold_nodes_lt :
    ∀ (es : List MC.Edge) (p : MC.Graph × MC.Uids),
      (∀ n ∈ p.1.nodes, n.id < p.2.nodeUid) →
      ∀ n ∈ (es.foldl MC.Ops.cdStep p).1.nodes,
        n.id < (es.foldl MC.Ops.cdStep p).2.nodeUid := by
  intro es
  induction es with
  | nil => intro p h; exact h
  | cons e t ih => intro p h; exact ih _ (cdStep_nodes_lt p e h)

/-- The deadlock-construction fold keeps all edge ids below the counter. -/
theorem cdFold_edges_lt :
    ∀ (es : List MC.Edge) (p : MC.Graph × MC.Uids),
      (∀ f ∈ p.1.edges, f.id < p.2.edgeUid) →
      ∀ f ∈ (es.foldl MC.Ops.cdStep p).1.edges,
        f.id < (es.foldl MC.Ops.cdStep p).2.edgeUid := by
  intro es
  induction es with
  | nil => intro p h; exact h
  | cons e t ih => intro p h; exact ih _ (cdStep_edges_lt p e h)

/-- Stability of the deadlock-construction fold: a node below the counter
and an edge whose id is above every unprocessed snapshot id both survive. -/
theorem cdFold_stable (m : MC.Node) (d : MC.Edge) :
    ∀ (es : List MC.Edge) (p : MC.Graph × MC.Uids),
      (∀ f ∈ es, f.id < d.id) → m.id < p.2.nodeUid →
      m ∈ p.1.nodes → d ∈ p.1.edges →
      m ∈ (es.foldl MC.Ops.cdStep p).1.nodes ∧ d ∈ (es.foldl MC.Ops.cdStep p).1.edges := by
  intro es
  induction es with
  | nil => intro p _ _ hm hd; exact ⟨hm, hd⟩
  | cons e t ih =>
      intro p hids hmlt hm hd
      have hmono := cdStep_uids_mono p e
      refine ih (MC.Ops.cdStep p e) (fun f hf => hids f (List.mem_cons_of_mem _ hf))
        (Nat.lt_of_lt_of_le hmlt hmono.1) ?_ ?_
      · unfold MC.Ops.cdStep
        split
        · refine addMetaDataTo_mem_of_ne _ _ _ _ ?_ (by omega)
          rw [removeEdge_nodes, addEdgeD_nodes]
          exact addNodeD_mem_nodes_of_mem _ _ _ _ hm
        · exact hm
      · unfold MC.Ops.cdStep
        split
        · rw [addMetaDataTo_edges, removeEdge_edges]
          refine List.mem_filter.mpr ⟨?_, ?_⟩
          · refine addEdgeD_mem_edges_of_mem _ _ _ _ _ _ _ ?_
            rw [addNodeD_edges]
            exact hd
          · have h2 := hids e (List.mem_cons_self e t)
            simp only [bne_iff_ne, ne_eq]
            omega
        · exact hd

/-- No edge with a given stale id reappears during the fold. -/
theorem cdFold_no_id (i : Nat) :
    ∀ (es : List MC.Edge) (p : MC.Graph × MC.Uids),
      (∀ f ∈ p.1.edges, f.id ≠ i) → i < p.2.edgeUid →
      ∀ f ∈ (es.foldl MC.Ops.cdStep p).1.edges, f.id ≠ i := by
  intro es
  induction es with
  | nil => intro p h _ f hf; exact h f hf
  | cons e t ih =>
      intro p h hlt f hf
      have hmono := cdStep_uids_mono p e
      refine ih (MC.Ops.cdStep p e) ?_ (Nat.lt_of_lt_of_le hlt hmono.2) f hf
      intro f2 hf2
      revert hf2
      unfold MC.Ops.cdStep
      split
      · intro hf2
        rw [addMetaDataTo_edges, removeEdge_edges] at hf2
        rcases List.mem_filter.mp hf2 with ⟨hf3, _⟩
        rcases addEdgeD_edges_sub _ _ _ _ _ _ _ hf3 with h1 | h1
        · rw [h1]
          simp only []
          omega
        · rw [addNodeD_edges] at h1
          exact h f2 h1
      · intro hf2
        exact h f2 hf2

/-- On a hidden self-loop, one deadlock-construction step takes its explicit
add-add-remove-tag form. -/
theorem cdStep_loop_eq (p : MC.Graph × MC.Uids) (e : MC.Edge) (hh : e.isHidden = true)
    (hl : e.fromId = e.toId) :
    MC.Ops.cdStep p e =
      ((((p.1.addNodeD p.2.nodeUid "" []).addEdgeD p.2.edgeUid e.fromId p.2.nodeUid ""
          false true).removeEdge e.id).addMetaDataTo p.2.nodeUid "isTerminal"
          (MC.MVal.s "error"),
        MC.Uids.mk (p.2.nodeUid + 1) (p.2.edgeUid + 1)) := by
  unfold MC.Ops.cdStep
  rw [if_pos (by simp [hh, hl])]

/-- Claim C3: unfair abstraction leaves no hidden self-loop, and
`_constructDeadlocks` replaces every hidden self-loop by a deadlock edge
from the loop's node to a freshly added sink tagged `isTerminal = "error"`,
removing the loop (given the uid counters are ahead of the existing ids, as
the shared counters guarantee within one compile). -/
theorem C3_unfair_abstraction_deadlocks :
    (∀ (g : MC.Graph) (u : MC.Uids),
      ∀ f ∈ (MC.Ops.abstraction g false u).1.edges,
        ¬(f.isHidden = true ∧ f.fromId = f.toId)) ∧
    (∀ (g : MC.Graph) (u : MC.Uids) (e : MC.Edge),
      e ∈ g.edges → e.isHidden = true → e.fromId = e.toId →
      (∀ nd ∈ g.nodes, nd.id < u.nodeUid) →
      (∀ f ∈ g.edges, f.id < u.edgeUid) →
      ∃ m d, m ∈ (MC.Ops.constructDeadlocks g u).1.nodes ∧
        MC.metaLookup m.meta "isTerminal" = some (MC.MVal.s "error") ∧
        (∀ nd ∈ g.nodes, nd.id ≠ m.id) ∧
        d ∈ (MC.Ops.constructDeadlocks g u).1.edges ∧
        d.isDeadlock = true ∧ d.isHidden = false ∧
        d.fromId = e.fromId ∧ d.toId = m.id ∧
        (∀ f ∈ (MC.Ops.constructDeadlocks g u).1.edges, f.id ≠ e.id)) := by
  constructor
  · intro g u f hf hcon
    rw [abstraction_unfair_unfold] at hf
    have h1 := trim_edges_sub _ f hf
    rw [constructStopNodes_edges] at h1
    exact constructDeadlocks_no_hidden_loop _ _ f h1 hcon.1 hcon.2
  · intro g u e he hh hl hn hedge
    obtain ⟨pre, post, hsplit⟩ := List.append_of_mem he
    have hn1 : ∀ n ∈ (pre.foldl MC.Ops.cdStep (g, u)).1.nodes,
        n.id < (pre.foldl MC.Ops.cdStep (g, u)).2.nodeUid := cdFold_nodes_lt pre (g, u) hn
    have he1 : ∀ f2 ∈ (pre.foldl MC.Ops.cdStep (g, u)).1.edges,
        f2.id < (pre.foldl MC.Ops.cdStep (g, u)).2.edgeUid := cdFold_edges_lt pre (g, u) hedge
    have hmono1 : u.nodeUid ≤ (pre.foldl MC.Ops.cdStep (g, u)).2.nodeUid ∧
        u.edgeUid ≤ (pre.foldl MC.Ops.cdStep (g, u)).2.edgeUid := cdFold_uids_mono pre (g, u)
    have hstep := cdStep_loop_eq (pre.foldl MC.Ops.cdStep (g, u)) e hh hl
    have heid : e.id < u.edgeUid := hedge e he
    have heq : MC.Ops.constructDeadlocks g u =
        post.foldl MC.Ops.cdStep (MC.Ops.cdStep (pre.foldl MC.Ops.cdStep (g, u)) e) := by
      show g.edges.foldl MC.Ops.cdStep (g, u) = _
      rw [hsplit, List.foldl_append, List.foldl_cons]
    have hfreshN : (pre.foldl MC.Ops.cdStep (g, u)).1.getNode
        (pre.foldl MC.Ops.cdStep (g, u)).2.nodeUid = none := getNode_none_of_lt _ _ hn1
    have hfreshE : ((pre.foldl MC.Ops.cdStep (g, u)).1.addNodeD
        (pre.foldl MC.Ops.cdStep (g, u)).2.nodeUid "" []).getEdge
        (pre.foldl MC.Ops.cdStep (g, u)).2.edgeUid = none := by
      apply getEdge_none_of_lt
      intro f2 hf2
      rw [addNodeD_edges] at hf2
      exact he1 f2 hf2
    have hmG : MC.Node.mk (pre.foldl MC.Ops.cdStep (g, u)).2.nodeUid ""
        [("isTerminal", MC.MVal.s "error")] ∈
        (MC.Ops.cdStep (pre.foldl MC.Ops.cdStep (g, u)) e).1.nodes := by
      rw [hstep]
      unfold MC.Graph.addMetaDataTo
      refine List.mem_map.mpr
        ⟨MC.Node.mk (pre.foldl MC.Ops.cdStep (g, u)).2.nodeUid "" [], ?_,
          by simp [MC.metaInsert]⟩
      show _ ∈ (MC.Graph.removeEdge _ _).nodes
      rw [removeEdge_nodes, addEdgeD_nodes, addNodeD_nodes_of_fresh _ _ _ _ hfreshN]
      exact self_mem_insertNodeSorted _ _
    have hdG : MC.Edge.mk (pre.foldl MC.Ops.cdStep (g, u)).2.edgeUid e.fromId
        (pre.foldl MC.Ops.cdStep (g, u)).2.nodeUid "" false true ∈
        (MC.Ops.cdStep (pre.foldl MC.Ops.cdStep (g, u)) e).1.edges := by
      rw [hstep]
      show _ ∈ (MC.Graph.addMetaDataTo _ _ _ _).edges
      rw [addMetaDataTo_edges, removeEdge_edges]
      refine List.mem_filter.mpr ⟨?_, ?_⟩
      · rw [addEdgeD_edges_of_fresh _ _ _ _ _ _ _ hfreshE]
        exact self_mem_insertEdgeSorted _ _
      · simp only [bne_iff_ne, ne_eq]
        have h5 := hmono1.2
        show ¬((pre.foldl MC.Ops.cdStep (g, u)).2.edgeUid = e.id)
        omega
    have hmlt : (MC.Node.mk (pre.foldl MC.Ops.cdStep (g, u)).2.nodeUid ""
        [("isTerminal", MC.MVal.s "error")]).id <
        (MC.Ops.cdStep (pre.foldl MC.Ops.cdStep (g, u)) e).2.nodeUid := by
      rw [hstep]
      exact Nat.lt_succ_self _
    have hpostids : ∀ f2 ∈ post, f2.id <
        (MC.Edge.mk (pre.foldl MC.Ops.cdStep (g, u)).2.edgeUid e.fromId
          (pre.foldl MC.Ops.cdStep (g, u)).2.nodeUid "" false true).id := by
      intro f2 hf2
      have hf3 : f2 ∈ g.edges := by
        rw [hsplit]
        exact List.mem_append_right _ (List.mem_cons_of_mem _ hf2)
      have h4 := hedge f2 hf3
      have h5 := hmono1.2
      show f2.id < (pre.foldl MC.Ops.cdStep (g, u)).2.edgeUid
      omega
    have hfinal := cdFold_stable _ _ post _ hpostids hmlt hmG hdG
    have hnoid0 : ∀ f2 ∈ (MC.Ops.cdStep (pre.foldl MC.Ops.cdStep (g, u)) e).1.edges,
        f2.id ≠ e.id := by
      rw [hstep]
      intro f2 hf2
      have hf3 : f2 ∈ (MC.Graph.addMetaDataTo _ _ _ _).edges := hf2
      rw [addMetaDataTo_edges, removeEdge_edges] at hf3
      rcases List.mem_filter.mp hf3 with ⟨_, hfn⟩
      simpa using hfn
    have hlt0 : e.id < (MC.Ops.cdStep (pre.foldl MC.Ops.cdStep (g, u)) e).2.edgeUid := by
      rw [hstep]
      have h5 := hmono1.2
      show e.id < (pre.foldl MC.Ops.cdStep (g, u)).2.edgeUid + 1
      omega
    have hnoid := cdFold_no_id e.id post _ hnoid0 hlt0
    refine ⟨MC.Node.mk (pre.foldl MC.Ops.cdStep (g, u)).2.nodeUid ""
        [("isTerminal", MC.MVal.s "error")],
      MC.Edge.mk (pre.foldl MC.Ops.cdStep (g, u)).2.edgeUid e.fromId
        (pre.foldl MC.Ops.cdStep (g, u)).2.nodeUid "" false true,
      ?_, rfl, ?_, ?_, rfl, rfl, rfl, rfl, ?_⟩
    · rw [heq]
      exact hfinal.1
    · intro nd hnd
      have h3 := hn nd hnd
      have h5 := hmono1.1
      show nd.id ≠ (pre.foldl MC.Ops.cdStep (g, u)).2.nodeUid
      omega
    · rw [heq]
      exact hfinal.2
    · rw [heq]
      exact hnoid

/-- Witness for C3: an LTS with a hidden self-loop, its unfair abstraction
and the deadlock construction at that loop. -/
theorem C3_witness :
    wG3loop ∈ wG3.edges ∧
    (∀ f ∈ (MC.Ops.abstraction wG3 false (MC.Uids.mk 2 2)).1.edges,
      ¬(f.isHidden = true ∧ f.fromId = f.toId)) ∧
    (∃ m d, m ∈ (MC.Ops.constructDeadlocks wG3 (MC.Uids.mk 2 2)).1.nodes ∧
      MC.metaLookup m.meta "isTerminal" = some (MC.MVal.s "error") ∧
      (∀ nd ∈ wG3.nodes, nd.id ≠ m.id) ∧
      d ∈ (MC.Ops.constructDeadlocks wG3 (MC.Uids.mk 2 2)).1.edges ∧
      d.isDeadlock = true ∧ d.isHidden = false ∧
      d.fromId = wG3loop.fromId ∧ d.toId = m.id ∧
      (∀ f ∈ (MC.Ops.constructDeadlocks wG3 (MC.Uids.mk 2 2)).1.edges,
        f.id ≠ wG3loop.id)) :=
  ⟨by decide,
   C3_unfair_abstraction_deadlocks.1 wG3 (MC.Uids.mk 2 2),
   C3_unfair_abstraction_deadlocks.2 wG3 (MC.Uids.mk 2 2) wG3loop (by decide) rfl rfl
     (by decide) (by decide)⟩

/-- Looking up a freshly assigned metadata key yields the assigned value. -/
theorem metaLookup_metaInsert (k : String) (v : MC.MVal) :
    ∀ (m : MC.Meta), MC.metaLookup (MC.metaInsert m k v) k = some v := by
  intro m
  induction m with
  | nil => simp [MC.metaInsert, MC.metaLookup]
  | cons p t ih =>
      unfold MC.metaInsert
      by_cases hc : (p.1 == k) = true
      · rw [if_pos hc]
        simp [MC.metaLookup]
      · rw [if_neg hc]
        unfold MC.metaLookup at ih ⊢
        rw [List.find?_cons_of_neg]
        · exact ih
        · simpa using fun hcc => hc (by simp [hcc])

/-- The visited list only grows during the reachability search. -/
theorem reachableStep_visited_sub (g : MC.Graph) :
    ∀ (fuel : Nat) (stack visited : List Nat),
      ∀ v ∈ visited, v ∈ g.reachableStep fuel stack visited := by
  intro fuel
  induction fuel with
  | zero => intro stack visited v hv; exact hv
  | succ n ih =>
      intro stack visited v hv
      cases stack with
      | nil => exact hv
      | cons id rest =>
          unfold MC.Graph.reachableStep
          split
          · exact ih _ _ v hv
          · split
            · exact ih _ _ v (List.mem_append_left _ hv)
            · exact ih _ _ v (List.mem_append_left _ hv)

/-- Every id reached by the search is the root or the target of an edge
whose source is also reached. -/
theorem reachableStep_inv (g : MC.Graph) (r : Nat) :
    ∀ (fuel : Nat) (stack visited : List Nat),
      (∀ v ∈ stack, v = r ∨ ∃ e ∈ g.edges, e.toId = v ∧ e.fromId ∈ visited) →
      (∀ v ∈ visited, v = r ∨ ∃ e ∈ g.edges, e.toId = v ∧ e.fromId ∈ visited) →
      ∀ v ∈ g.reachableStep fuel stack visited,
        v = r ∨ ∃ e ∈ g.edges, e.toId = v ∧
          e.fromId ∈ g.reachableStep fuel stack visited := by
  intro fuel
  induction fuel with
  | zero => intro stack visited _ hq v hv; exact hq v hv
  | succ n ih =>
      intro stack visited hp hq v hv
      cases stack with
      | nil => exact hq v hv
      | cons id rest =>
          revert hv
          unfold MC.Graph.reachableStep
          split
          · exact fun hv => ih rest visited (fun w hw => hp w (List.mem_cons_of_mem _ hw))
              hq v hv
          · next hnotv =>
              have hq1 : ∀ w ∈ visited ++ [id],
                  w = r ∨ ∃ e ∈ g.edges, e.toId = w ∧ e.fromId ∈ visited ++ [id] := by
                intro w hw
                rcases List.mem_append.mp hw with hw1 | hw1
                · rcases hq w hw1 with h1 | ⟨e, he1, he2, he3⟩
                  · exact Or.inl h1
                  · exact Or.inr ⟨e, he1, he2, List.mem_append_left _ he3⟩
                · have hwid : w = id := by simpa using hw1
                  rw [hwid]
                  rcases hp id (List.mem_cons_self id rest) with h1 | ⟨e, he1, he2, he3⟩
                  · exact Or.inl h1
                  · exact Or.inr ⟨e, he1, he2, List.mem_append_left _ he3⟩
              split
              · refine ih rest (visited ++ [id]) ?_ hq1 v
                intro w hw
                rcases hp w (List.mem_cons_of_mem _ hw) with h1 | ⟨e, he1, he2, he3⟩
                · exact Or.inl h1
                · exact Or.inr ⟨e, he1, he2, List.mem_append_left _ he3⟩
              · refine ih ((g.neighborIds id).reverse ++ rest) (visited ++ [id]) ?_ hq1 v
                intro w hw
                rcases List.mem_append.mp hw with hw1 | hw1
                · have hw2 : w ∈ g.neighborIds id := List.mem_reverse.mp hw1
                  rcases List.mem_map.mp hw2 with ⟨e, he1, he2⟩
                  have he3 : e ∈ g.edges ∧ e.fromId = id := by
                    have h4 := List.mem_filter.mp he1
                    exact ⟨h4.1, by simpa using h4.2⟩
                  refine Or.inr ⟨e, he3.1, he2, ?_⟩
                  rw [he3.2]
                  exact List.mem_append_right _ (by simp)
                · rcases hp w (List.mem_cons_of_mem _ hw1) with h1 | ⟨e, he1, he2, he3⟩
                  · exact Or.inl h1
                  · exact Or.inr ⟨e, he1, he2, List.mem_append_left _ he3⟩

/-- The head of the stack is reached when any fuel is left. -/
theorem reachableStep_head_mem (g : MC.Graph) (r : Nat) (fuel : Nat) (stack visited : List Nat) :
    r ∈ g.reachableStep (fuel + 1) (r :: stack) visited := by
  unfold MC.Graph.reachableStep
  split
  · next h => exact reachableStep_visited_sub g _ _ _ r (by simpa using h)
  · split
    · exact reachableStep_visited_sub g _ _ _ r (List.mem_append_right _ (by simp))
    · exact reachableStep_visited_sub g _ _ _ r (List.mem_append_right _ (by simp))

/-- The root is always in the reachable set. -/
theorem root_mem_reachableNodes (g : MC.Graph) (r : Nat) (h : g.rootId = some r) :
    r ∈ g.reachableNodes := by
  unfold MC.Graph.reachableNodes
  rw [h]
  exact reachableStep_head_mem g r _ [] []

/-- Every id in the reachable set is the root or the target of an edge from
a reachable id. -/
theorem reachableNodes_incoming (g : MC.Graph) (r : Nat) (h : g.rootId = some r) :
    ∀ v ∈ g.reachableNodes, v = r ∨ ∃ e ∈ g.edges, e.toId = v ∧
      e.fromId ∈ g.reachableNodes := by
  intro v hv
  unfold MC.Graph.reachableNodes at hv ⊢
  rw [h] at hv ⊢
  refine reachableStep_inv g r _ [r] [] ?_ (by simp) v hv
  intro w hw
  exact Or.inl (by simpa using hw)

/-- Removing a node only removes nodes. -/
theorem removeNode_nodes_sub (g : MC.Graph) (i : Nat) :
    ∀ n ∈ (g.removeNode i).nodes, n ∈ g.nodes := by
  intro n hn
  unfold MC.Graph.removeNode at hn
  split at hn
  · exact hn
  · exact (List.mem_filter.mp hn).1

/-- After removing a node no node with its id remains. -/
theorem removeNode_no_id (g : MC.Graph) (i : Nat) :
    ∀ n ∈ (g.removeNode i).nodes, n.id ≠ i := by
  intro n hn
  unfold MC.Graph.removeNode at hn
  split at hn
  · next hg =>
      unfold MC.Graph.getNode at hg
      have h2 := List.find?_eq_none.mp hg n hn
      simpa using h2
  · have h2 := (List.mem_filter.mp hn).2
    simpa using h2

/-- The removal loop of `trim` only removes nodes. -/
theorem trimFold_nodes_sub (reach : List Nat) :
    ∀ (l : List Nat) (g : MC.Graph),
      ∀ n ∈ (l.foldl (fun acc i => if reach.contains i then acc else acc.removeNode i) g).nodes,
        n ∈ g.nodes := by
  intro l
  induction l with
  | nil => intro g n hn; exact hn
  | cons i t ih =>
      intro g n hn
      have h2 : n ∈ (if reach.contains i then g else g.removeNode i).nodes := ih _ n hn
      by_cases hc : reach.contains i = true
      · rwa [if_pos hc] at h2
      · rw [if_neg hc] at h2
        exact removeNode_nodes_sub g i n h2

/-- An unreachable id listed for removal does not survive the loop. -/
theorem trimFold_no_unreachable (reach : List Nat) :
    ∀ (l : List Nat) (g : MC.Graph) (i : Nat), i ∈ l → reach.contains i = false →
      ∀ n ∈ (l.foldl (fun acc j => if reach.contains j then acc else acc.removeNode j) g).nodes,
        n.id ≠ i := by
  intro l
  induction l with
  | nil => intro g i hi; cases hi
  | cons j t ih =>
      intro g i hi hci n hn
      rcases List.mem_cons.mp hi with h1 | h1
      · subst h1
        have hstep : (if reach.contains i then g else g.removeNode i) = g.removeNode i := by
          rw [if_neg (by rw [hci]; simp)]
        have h2 : n ∈ (g.removeNode i).nodes := by
          rw [← hstep]
          exact trimFold_nodes_sub reach t _ n hn
        exact removeNode_no_id g i n h2
      · exact ih _ i h1 hci n hn

/-- An edge with both endpoints reachable survives the removal loop. -/
theorem trimFold_keep_edge (reach : List Nat) :
    ∀ (l : List Nat) (g : MC.Graph) (e : MC.Edge), e ∈ g.edges →
      reach.contains e.fromId = true → reach.contains e.toId = true →
      e ∈ (l.foldl (fun acc j => if reach.contains j then acc else acc.removeNode j) g).edges := by
  intro l
  induction l with
  | nil => intro g e he _ _; exact he
  | cons j t ih =>
      intro g e he hf ht
      refine ih _ e ?_ hf ht
      show e ∈ (if reach.contains j then g else g.removeNode j).edges
      by_cases hc : reach.contains j = true
      · rwa [if_pos hc]
      · rw [if_neg hc]
        unfold MC.Graph.removeNode
        split
        · exact he
        · refine List.mem_filter.mpr ⟨he, ?_⟩
          have hfj : e.fromId ≠ j := fun hh => hc (by rw [← hh]; exact hf)
          have htj : e.toId ≠ j := fun hh => hc (by rw [← hh]; exact ht)
          simp [hfj, htj]

/-- The removal loop keeps a reachable root. -/
theorem trimFold_rootId (reach : List Nat) :
    ∀ (l : List Nat) (g : MC.Graph) (r : Nat), g.rootId = some r →
      reach.contains r = true →
      (l.foldl (fun acc j => if reach.contains j then acc else acc.removeNode j) g).rootId =
        some r := by
  intro l
  induction l with
  | nil => intro g r h _; exact h
  | cons j t ih =>
      intro g r h hr
      refine ih _ r ?_ hr
      show (if reach.contains j then g else g.removeNode j).rootId = some r
      by_cases hc : reach.contains j = true
      · rwa [if_pos hc]
      · rw [if_neg hc]
        unfold MC.Graph.removeNode
        split
        · exact h
        · have hrj : r ≠ j := fun hh => hc (by rw [← hh]; exact hr)
          rw [if_neg (by simp [h, hrj])]
          exact h

/-- In a trimmed rooted graph every non-root node has an incoming edge. -/
theorem trim_nonroot_incoming (g : MC.Graph) (r : Nat) (hroot : g.rootId = some r) :
    ∀ n ∈ (g.trim).nodes, n.id ≠ r → ∃ e, e ∈ (g.trim).edges ∧ e.toId = n.id := by
  intro n hn hne
  unfold MC.Graph.trim at hn ⊢
  by_cases hc : g.reachableNodes.contains n.id = true
  · have hmem : n.id ∈ g.reachableNodes := by simpa using hc
    rcases reachableNodes_incoming g r hroot n.id hmem with h1 | ⟨e, he1, he2, he3⟩
    · exact absurd h1 hne
    · refine ⟨e, ?_, he2⟩
      refine trimFold_keep_edge _ _ _ _ he1 (by simpa using he3) ?_
      rw [he2]
      exact hc
  · exfalso
    have hn0 : n ∈ g.nodes := trimFold_nodes_sub _ _ _ n hn
    have hid : n.id ∈ g.nodes.map (fun x => x.id) := List.mem_map.mpr ⟨n, hn0, rfl⟩
    exact trimFold_no_unreachable _ _ _ _ hid (by simpa using hc) n hn rfl

/-- Tagging a stop node keeps the root id. -/
theorem stopTag_rootId (g : MC.Graph) (id : Nat) :
    (MC.Ops.stopTag g id).rootId = g.rootId := by
  unfold MC.Ops.stopTag
  repeat' split
  all_goals rfl

/-- The stop-node search keeps the root id. -/
theorem stopStep_rootId :
    ∀ (fuel : Nat) (g : MC.Graph) (stack visited : List Nat),
      (MC.Ops.constructStopNodesStep fuel g stack visited).rootId = g.rootId := by
  intro fuel
  induction fuel with
  | zero => intro g stack visited; rfl
  | succ n ih =>
      intro g stack visited
      cases stack with
      | nil => rfl
      | cons id rest =>
          simp only [MC.Ops.constructStopNodesStep]
          rw [ih]
          split
          · exact stopTag_rootId g id
          · rfl

/-- Method `_constructStopNodes` keeps the root id. -/
theorem constructStopNodes_rootId (g : MC.Graph) :
    (MC.Ops.constructStopNodes g).rootId = g.rootId := by
  unfold MC.Ops.constructStopNodes MC.Graph.deepClone
  cases hr : g.root with
  | none => simp [hr]
  | some rn => simp [hr, stopStep_rootId]

/-- The edge-adding loop of `abstraction` keeps the root id. -/
theorem abstractionAdd_rootId :
    ∀ (specs : List MC.Ops.EdgeSpec) (g : MC.Graph),
      (MC.Ops.abstractionAdd specs g).rootId = g.rootId := by
  intro specs
  induction specs with
  | nil => intro g; rfl
  | cons s t ih =>
      intro g
      unfold MC.Ops.abstractionAdd at ih ⊢
      rw [List.foldl_cons]
      rw [ih]
      by_cases hc : g.containsEdge s.fromId s.toId s.label = true
      · rw [if_pos hc]
      · rw [if_neg hc]
        exact addEdgeD_rootId _ _ _ _ _ _ _

/-- The hidden-edge removal keeps the root id. -/
theorem removeHiddenEdges_rootId (g : MC.Graph) :
    (g.removeHiddenEdges).rootId = g.rootId := rfl

/-- In a trimmed rooted graph, a node with no incoming edges is the root. -/
theorem trim_empty_incoming_is_root (h : MC.Graph) (r : Nat) (hr : h.rootId = some r) :
    ∀ n ∈ h.trim.nodes, (h.trim.edgesToMe n.id).isEmpty = true →
      some n.id = h.trim.rootId := by
  intro n hn hempty
  have hrt : h.trim.rootId = some r := by
    unfold MC.Graph.trim
    exact trimFold_rootId _ _ _ r hr
      (by simpa using root_mem_reachableNodes h r hr)
  rw [hrt]
  by_contra hne
  have hner : n.id ≠ r := fun hh => hne (by rw [hh])
  rcases trim_nonroot_incoming h r hr n hn hner with ⟨e, he1, he2⟩
  have hmem : e ∈ h.trim.edgesToMe n.id := List.mem_filter.mpr ⟨he1, by simp [he2]⟩
  rw [List.isEmpty_iff] at hempty
  rw [hempty] at hmem
  exact absurd hmem (List.not_mem_nil e)

/-- Claim C10 amended: after `removeHiddenEdges` every node with no incoming
edges carries `startNode = true`; after a fair abstraction a node with no
incoming edges can only be the root, and the root itself may lack the tag
(the trailing trim can delete the root's only predecessors, see the
counterexample). -/
theorem C10_start_nodes_after_hidden_removal :
    (∀ (g : MC.Graph), ∀ n ∈ (g.removeHiddenEdges).nodes,
      ((g.removeHiddenEdges).edgesToMe n.id).isEmpty = true →
      MC.metaLookup n.meta "startNode" = some (MC.MVal.b true)) ∧
    (∀ (g : MC.Graph) (u : MC.Uids) (r : Nat), g.rootId = some r →
      ∀ n ∈ (MC.Ops.abstraction g true u).1.nodes,
        ((MC.Ops.abstraction g true u).1.edgesToMe n.id).isEmpty = true →
        some n.id = (MC.Ops.abstraction g true u).1.rootId) := by
  constructor
  · intro g n hn hempty
    have hn2 : n ∈ g.nodes.map (fun n =>
        if ((MC.Graph.mk g.nodes (g.edges.filter (fun e => !e.isHidden))
              g.rootId).edgesToMe n.id).isEmpty then
          MC.Node.mk n.id n.label (MC.metaInsert n.meta "startNode" (MC.MVal.b true))
        else n) := hn
    rcases List.mem_map.mp hn2 with ⟨n0, hn0, hmap⟩
    by_cases hc : ((MC.Graph.mk g.nodes (g.edges.filter (fun e => !e.isHidden))
        g.rootId).edgesToMe n0.id).isEmpty = true
    · rw [if_pos hc] at hmap
      rw [← hmap]
      exact metaLookup_metaInsert _ _ _
    · rw [if_neg hc] at hmap
      exfalso
      apply hc
      have hid : n0.id = n.id := by rw [hmap]
      rw [hid]
      exact hempty
  · intro g u r hroot n hn hempty
    rw [abstraction_fair_unfold] at hn hempty ⊢
    refine trim_empty_incoming_is_root _ r ?_ n hn hempty
    rw [constructStopNodes_rootId, removeHiddenEdges_rootId, abstractionAdd_rootId]
    exact hroot

/-- Witness for the amended C10: removing the hidden edge of `wG2` tags the
freshly sourceless node 1 with `startNode`, and after the fair abstraction of
`cexG10` the only node without incoming edges is the root. -/
theorem C10_witness :
    (MC.Node.mk 1 "" [("startNode", MC.MVal.b true)] ∈ (wG2.removeHiddenEdges).nodes ∧
      ((wG2.removeHiddenEdges).edgesToMe 1).isEmpty = true ∧
      MC.metaLookup [("startNode", MC.MVal.b true)] "startNode" = some (MC.MVal.b true)) ∧
    (cexG10.rootId = some 0 ∧
      MC.Node.mk 0 "" [("isTerminal", MC.MVal.s "stop")] ∈
        (MC.Ops.abstraction cexG10 true (MC.Uids.mk 2 1)).1.nodes ∧
      ((MC.Ops.abstraction cexG10 true (MC.Uids.mk 2 1)).1.edgesToMe 0).isEmpty = true ∧
      some 0 = (MC.Ops.abstraction cexG10 true (MC.Uids.mk 2 1)).1.rootId) :=
  ⟨⟨by decide, by decide,
    C10_start_nodes_after_hidden_removal.1 wG2
      (MC.Node.mk 1 "" [("startNode", MC.MVal.b true)]) (by decide) (by decide)⟩,
   ⟨rfl, by decide, by decide,
    C10_start_nodes_after_hidden_removal.2 cexG10 (MC.Uids.mk 2 1) 0 rfl
      (MC.Node.mk 0 "" [("isTerminal", MC.MVal.s "stop")]) (by decide) (by decide)⟩⟩

/-- A successful node lookup returns the node with the looked-up id. -/
theorem getNode_id (g : MC.Graph) (r : Nat) (n : MC.Node)
    (h : g.getNode r = some n) : n.id = r := by
  unfold MC.Graph.getNode at h
  simpa using List.find?_some h

/-- Shape of the nodes getter under a resolved root: the root node first,
then every other node. -/
theorem nodesList_eq (g : MC.Graph) (r : Nat) (n : MC.Node)
    (hroot : g.rootId = some r) (hnode : g.getNode r = some n) :
    g.nodesList = n :: g.nodes.filter (fun x => !(some x.id == g.rootId)) := by
  have hr : g.root = some n := by
    unfold MC.Graph.root
    rw [hroot]
    exact hnode
  unfold MC.Graph.nodesList
  rw [hr]

/-- The root id of a node merge, unfolded. -/
theorem mergeNodes_rootId_eq (g : MC.Graph) (s : Nat) (rest : List Nat) :
    (g.mergeNodes (s :: rest)).rootId =
      (if (s :: rest).any (fun i => g.rootId == some i) then some s else g.rootId) := rfl

/-- Merging preserves the root when no merged id is the root id. -/
theorem mergeNodes_rootId_of_not_mem (g : MC.Graph) (s : Nat) (rest : List Nat) (r : Nat)
    (hroot : g.rootId = some r) (h : r ∉ s :: rest) :
    (g.mergeNodes (s :: rest)).rootId = some r := by
  rw [mergeNodes_rootId_eq]
  have hfalse : ((s :: rest).any (fun i => g.rootId == some i)) = false := by
    rw [List.any_eq_false]
    intro i hi hpi
    rw [hroot] at hpi
    have hri : r = i := by simpa using hpi
    exact h (hri ▸ hi)
  rw [hfalse]
  simpa using hroot

/-- Merging a class headed by the root id keeps the root id. -/
theorem mergeNodes_rootId_of_head (g : MC.Graph) (rest : List Nat) (r : Nat)
    (hroot : g.rootId = some r) :
    (g.mergeNodes (r :: rest)).rootId = some r := by
  rw [mergeNodes_rootId_eq]
  split
  · rfl
  · exact hroot

/-- Merging preserves a root whose id, when merged at all, heads the class. -/
theorem mergeNodes_rootId_general (g : MC.Graph) (ids : List Nat) (r : Nat)
    (hroot : g.rootId = some r) (hhead : r ∈ ids → ids.head? = some r) :
    (g.mergeNodes ids).rootId = some r := by
  cases ids with
  | nil => simpa [MC.Graph.mergeNodes] using hroot
  | cons s rest =>
      by_cases hr : r ∈ s :: rest
      · have hh := hhead hr
        have hs : s = r := by simpa using hh
        rw [← hs] at hroot
        rw [← hs]
        exact mergeNodes_rootId_of_head g rest s hroot
      · exact mergeNodes_rootId_of_not_mem g s rest r hroot hr

/-- In a filtered id list over a root-first node list, the root id can only
come first. -/
theorem filtered_ids_head (p : MC.Node → Bool) (n : MC.Node) (rest : List MC.Node) (r : Nat)
    (h1 : n.id = r) (h2 : ∀ x ∈ rest, x.id ≠ r)
    (hmem : r ∈ ((n :: rest).filter p).map (fun nd => nd.id)) :
    ((n :: rest).filter p).map (fun nd => nd.id) =
      r :: ((rest.filter p).map (fun nd => nd.id)) := by
  rcases List.mem_map.mp hmem with ⟨x, hxf, hxid⟩
  have hx := List.mem_filter.mp hxf
  have hxn : x = n := by
    rcases List.mem_cons.mp hx.1 with he | ht
    · exact he
    · exact absurd hxid (h2 x ht)
  have hpn : p n = true := hxn ▸ hx.2
  simp [List.filter_cons, hpn, h1]

/-- One merge-phase colour class preserves the root id when the node list is
root first. -/
theorem mergePhaseStep_rootId (cns : MC.ColoredMap) (n : MC.Node) (rest : List MC.Node)
    (cc : MC.Graph) (i : Nat) (r : Nat)
    (h1 : n.id = r) (h2 : ∀ x ∈ rest, x.id ≠ r) (hcc : cc.rootId = some r) :
    (MC.Ops.mergePhaseStep cns (n :: rest) cc i).rootId = some r := by
  simp only [MC.Ops.mergePhaseStep]
  split
  · apply mergeNodes_rootId_general cc _ r hcc
    intro hmem
    rw [filtered_ids_head _ n rest r h1 h2 hmem]
    rfl
  · exact hcc

/-- The whole merge-phase fold preserves the root id. -/
theorem mergePhase_fold_rootId (cns : MC.ColoredMap) (n : MC.Node) (rest : List MC.Node)
    (r : Nat) (h1 : n.id = r) (h2 : ∀ x ∈ rest, x.id ≠ r) :
    ∀ (L : List Nat) (cc : MC.Graph), cc.rootId = some r →
      (L.foldl (MC.Ops.mergePhaseStep cns (n :: rest)) cc).rootId = some r := by
  intro L
  induction L with
  | nil => intro cc hcc; exact hcc
  | cons i t ih =>
      intro cc hcc
      exact ih _ (mergePhaseStep_rootId cns n rest cc i r h1 h2 hcc)

/-- The merge phase of the bisimulation preserves a resolvable root. -/
theorem mergePhase_rootId (cns : MC.ColoredMap) (cmapLen : Nat) (clone : MC.Graph)
    (r : Nat) (n : MC.Node)
    (hroot : clone.rootId = some r) (hnode : clone.getNode r = some n) :
    (MC.Ops.mergePhase cns cmapLen clone).rootId = some r := by
  unfold MC.Ops.mergePhase
  rw [nodesList_eq clone r n hroot hnode]
  apply mergePhase_fold_rootId cns n _ r (getNode_id clone r n hnode)
  · intro x hx
    have hpred := (List.mem_filter.mp hx).2
    rw [hroot] at hpred
    intro hxr
    rw [hxr] at hpred
    simp at hpred
  · exact hroot

/-- Removing duplicate edges never touches the root id. -/
theorem removeDuplicateEdges_rootId (g : MC.Graph) :
    (g.removeDuplicateEdges).rootId = g.rootId := rfl

/-- The simplification of a graph is a merge phase followed by duplicate-edge
removal, for some colour data. -/
theorem simplification_form (g : MC.Graph) :
    ∃ cns len, MC.Ops.simplification g = (MC.Ops.mergePhase cns len g).removeDuplicateEdges :=
  ⟨_, _, rfl⟩

/-- Simplification preserves a resolvable root id. -/
theorem simplification_rootId (g : MC.Graph) (r : Nat) (n : MC.Node)
    (hroot : g.rootId = some r) (hnode : g.getNode r = some n) :
    (MC.Ops.simplification g).rootId = some r := by
  obtain ⟨cns, len, heq⟩ := simplification_form g
  rw [heq, removeDuplicateEdges_rootId]
  exact mergePhase_rootId cns len g r n hroot hnode

/-- Lookup in a colour map, one entry at a time. -/
theorem cmapLookup_cons (q : Nat × MC.CNode) (t : MC.ColoredMap) (k : Nat) :
    MC.cmapLookup (q :: t) k = if q.1 == k then some q.2 else MC.cmapLookup t k := by
  unfold MC.cmapLookup
  cases h : (q.1 == k) with
  | false => simp [List.find?_cons, h]
  | true => simp [List.find?_cons, h]

/-- Looking up the freshly inserted key finds the inserted colour entry. -/
theorem cmapLookup_cmapInsert_self (k : Nat) (v : MC.CNode) :
    ∀ (m : MC.ColoredMap), MC.cmapLookup (MC.cmapInsert k v m) k = some v := by
  intro m
  induction m with
  | nil => simp [MC.cmapInsert, cmapLookup_cons]
  | cons p t ih =>
      by_cases h1 : k = p.1
      · simp [MC.cmapInsert, cmapLookup_cons, h1]
      · have hb : (k == p.1) = false := beq_eq_false_iff_ne.mpr h1
        by_cases h2 : k < p.1
        · simp [MC.cmapInsert, cmapLookup_cons, hb, h2]
        · have hb2 : (p.1 == k) = false := beq_eq_false_iff_ne.mpr (Ne.symm h1)
          simp [MC.cmapInsert, cmapLookup_cons, hb, h2, hb2, ih]

/-- Inserting under a different key leaves a lookup unchanged. -/
theorem cmapLookup_cmapInsert_ne (k j : Nat) (v : MC.CNode) (h : j ≠ k) :
    ∀ (m : MC.ColoredMap), MC.cmapLookup (MC.cmapInsert k v m) j = MC.cmapLookup m j := by
  have hkj : (k == j) = false := beq_eq_false_iff_ne.mpr (Ne.symm h)
  intro m
  induction m with
  | nil => simp [MC.cmapInsert, cmapLookup_cons, hkj, MC.cmapLookup]
  | cons p t ih =>
      by_cases h1 : k = p.1
      · have hpj : (p.1 == j) = false := by rw [← h1]; exact hkj
        simp [MC.cmapInsert, cmapLookup_cons, h1, hkj, hpj]
      · have hb : (k == p.1) = false := beq_eq_false_iff_ne.mpr h1
        by_cases h2 : k < p.1
        · simp [MC.cmapInsert, cmapLookup_cons, hb, h2, hkj]
        · simp [MC.cmapInsert, cmapLookup_cons, hb, h2, ih]

/-- Insertion never erases a present key. -/
theorem cmapLookup_cmapInsert_isSome (k j : Nat) (v : MC.CNode) (m : MC.ColoredMap)
    (h : (MC.cmapLookup m j).isSome = true) :
    (MC.cmapLookup (MC.cmapInsert k v m) j).isSome = true := by
  by_cases hjk : j = k
  · subst hjk
    rw [cmapLookup_cmapInsert_self]
    rfl
  · rw [cmapLookup_cmapInsert_ne k j v hjk]
    exact h

/-- The inner colouring fold of the bisimulation makes every listed node id
present and keeps the keys already present. -/
theorem innerFold_lookup_isSome (c : MC.Graph) :
    ∀ (nodes : List MC.Node) (acc : MC.ColoredMap) (k : Nat),
      ((∃ nd ∈ nodes, nd.id = k) ∨ (MC.cmapLookup acc k).isSome = true) →
      (MC.cmapLookup (nodes.foldl
        (fun acc2 n => MC.cmapInsert n.id (MC.Ops.mkColoredNode c n) acc2) acc) k).isSome
        = true := by
  intro nodes
  induction nodes with
  | nil =>
      intro acc k h
      rcases h with ⟨nd, hnd, _⟩ | h
      · exact absurd hnd (List.not_mem_nil _)
      · exact h
  | cons nd t ih =>
      intro acc k h
      rw [List.foldl_cons]
      apply ih
      rcases h with ⟨x, hx, hxid⟩ | h
      · rcases List.mem_cons.mp hx with hxe | hxt
        · right
          subst hxe
          rw [← hxid, cmapLookup_cmapInsert_self]
          rfl
        · exact Or.inl ⟨x, hxt, hxid⟩
      · exact Or.inr (cmapLookup_cmapInsert_isSome _ _ _ _ h)

/-- The outer colouring fold of the bisimulation makes every node id of every
listed clone present. -/
theorem outerFold_lookup_isSome :
    ∀ (gl : List MC.Graph) (acc : MC.ColoredMap) (k : Nat),
      ((∃ gg ∈ gl, ∃ nd ∈ gg.nodesList, nd.id = k) ∨ (MC.cmapLookup acc k).isSome = true) →
      (MC.cmapLookup (gl.foldl
        (fun acc c => c.nodesList.foldl
          (fun acc2 n => MC.cmapInsert n.id (MC.Ops.mkColoredNode c n) acc2) acc) acc) k).isSome
        = true := by
  intro gl
  induction gl with
  | nil =>
      intro acc k h
      rcases h with ⟨gg, hgg, _⟩ | h
      · exact absurd hgg (List.not_mem_nil _)
      · exact h
  | cons g0 t ih =>
      intro acc k h
      rw [List.foldl_cons]
      apply ih
      rcases h with ⟨gg, hgg, hex⟩ | h
      · rcases List.mem_cons.mp hgg with he | ht
        · right
          subst he
          exact innerFold_lookup_isSome gg gg.nodesList acc k (Or.inl hex)
        · exact Or.inl ⟨gg, ht, hex⟩
      · exact Or.inr (innerFold_lookup_isSome _ _ _ _ (Or.inr h))

/-- A key-preserving map over the colour map preserves lookup success. -/
theorem cmapLookup_map_isSome (f : Nat × MC.CNode → Nat × MC.CNode)
    (hf : ∀ p, (f p).1 = p.1) :
    ∀ (m : MC.ColoredMap) (k : Nat),
      (MC.cmapLookup (m.map f) k).isSome = (MC.cmapLookup m k).isSome := by
  intro m
  induction m with
  | nil => intro k; rfl
  | cons p t ih =>
      intro k
      rw [List.map_cons, cmapLookup_cons, cmapLookup_cons, hf]
      cases hb : (p.1 == k) with
      | true => simp [hb]
      | false => simp [hb, ih]

/-- Applying a colouring step changes no key of the colour map. -/
theorem applyColoring_lookup_isSome (cns : MC.ColoredMap) (cmap : List (List MC.Color))
    (k : Nat) :
    (MC.cmapLookup (MC.Ops.applyColoring cns cmap) k).isSome = (MC.cmapLookup cns k).isSome := by
  unfold MC.Ops.applyColoring
  apply cmapLookup_map_isSome
  intro p
  cases h : List.findIdx? (fun existing =>
      MC.coloringEquals existing (MC.Ops.constructNodeColoring p.2 cns)) cmap with
  | none => simp [h]
  | some c => simp [h]

/-- The whole colouring refinement loop changes no key of the colour map. -/
theorem coloringLoop_lookup_isSome :
    ∀ (fuel : Nat) (prevLen : Int) (cmap : List (List MC.Color)) (cns : MC.ColoredMap) (k : Nat),
      (MC.cmapLookup (MC.Ops.coloringLoop fuel prevLen cmap cns).1 k).isSome =
        (MC.cmapLookup cns k).isSome := by
  intro fuel
  induction fuel with
  | zero => intro prevLen cmap cns k; rfl
  | succ f ih =>
      intro prevLen cmap cns k
      unfold MC.Ops.coloringLoop
      split
      · simp only [ih, applyColoring_lookup_isSome]
      · rfl

/-- Every node id of every graph given to the bisimulation ends up as a key
of the returned colour map. -/
theorem bisim_lookup_isSome (graphs : List MC.Graph) (k : Nat)
    (h : ∃ gg ∈ graphs, ∃ nd ∈ gg.nodesList, nd.id = k) :
    (MC.cmapLookup (MC.Ops.bisimulation graphs).1 k).isSome = true := by
  unfold MC.Ops.bisimulation
  simp only [coloringLoop_lookup_isSome]
  apply outerFold_lookup_isSome
  left
  simpa [MC.Graph.deepClone] using h

/-- The root comparison of two graphs sharing a root id present in the colour
map runs the same lookup twice and reports equivalence. -/
theorem checkRoots_pair_self (cns : MC.ColoredMap) (g1 g2 : MC.Graph) (r : Nat) (c : MC.CNode)
    (h1 : g1.rootId = some r) (h2 : g2.rootId = some r)
    (hc : MC.cmapLookup cns r = some c) :
    MC.Ops.checkRoots cns [g1, g2] = some true := by
  simp [MC.Ops.checkRoots, h1, h2, hc]

/-- C1: for every LTS with a resolvable root node, the simplification is
strongly bisimilar to the original graph: the equivalence routine applied to
the simplified graph and the original returns true.  The shared colour map of
the joint bisimulation keys nodes by id, the simplification preserves the
root id, so both root lookups hit the same entry and the colour comparison
cannot fail. -/
theorem C1_simplification_bisimilar_to_input (g : MC.Graph) (r : Nat) (n : MC.Node)
    (hroot : g.rootId = some r) (hnode : g.getNode r = some n) :
    MC.Ops.isEquivalent [MC.Ops.simplification g, g] = some true := by
  have hs : (MC.Ops.simplification g).rootId = some r :=
    simplification_rootId g r n hroot hnode
  have hkey : (MC.cmapLookup (MC.Ops.bisimulation [MC.Ops.simplification g, g]).1 r).isSome
      = true := by
    apply bisim_lookup_isSome
    refine ⟨g, by simp, n, ?_, getNode_id g r n hnode⟩
    rw [nodesList_eq g r n hroot hnode]
    exact List.mem_cons_self _ _
  obtain ⟨c, hc⟩ := Option.isSome_iff_exists.mp hkey
  show MC.Ops.checkRoots (MC.Ops.bisimulation [MC.Ops.simplification g, g]).1
    [MC.Ops.simplification g, g] = some true
  exact checkRoots_pair_self _ _ _ r c hs hroot hc

/-- Witness for C1 at the two-branch graph: the hypotheses hold and the
equivalence routine accepts the simplification. -/
theorem C1_witness :
    wG1.rootId = some 0 ∧ wG1.getNode 0 = some (MC.Node.mk 0 "" []) ∧
    MC.Ops.isEquivalent [MC.Ops.simplification wG1, wG1] = some true :=
  ⟨rfl, rfl, C1_simplification_bisimilar_to_input wG1 0 (MC.Node.mk 0 "" []) rfl rfl⟩
